import Mathlib

/-!
Verification development for the `mali-signali` reactive-state library.

The store scheduler (`src/store.ts`, the version embedding `untracked`,
`isTracking` and `EffectOptions`) is modelled as a fueled interpreter over a
deep embedding of effect bodies; the structural-equality helper
(`src/equal.ts`) is modelled over an explicit heap of JavaScript objects so
that reference identity, the comparison cache and typed arrays are faithful.
-/

set_option maxHeartbeats 1000000

namespace MaliSignali

/-- Signal values: `undef` models JavaScript `undefined` (the initial value of
a memo's hidden signal), `i n` an ordinary value. -/
inductive SVal where
  | undef
  | i (n : Int)
  deriving DecidableEq, Repr

/-- A user cleanup callable, identified by `cid`; `throws` records whether
invoking it raises an exception. -/
structure Cleanup where
  cid : Nat
  throws : Bool
  deriving DecidableEq, Repr

/-- Exceptions of the model: the cyclic-dependency error thrown by `update()`,
a user exception thrown by an effect body, and fuel exhaustion of the
interpreter (never reached by the concrete programs below). -/
inductive Err where
  | cyclic
  | user (code : Nat)
  | fuelOut
  deriving DecidableEq, Repr

/-- The literal prefix used by `cleanup()` when logging a failed user cleanup:
`console.error('Error during effect cleanup:', error)`. -/
def cleanupErrMsg : String := "Error during effect cleanup:"

/-- Observable events, recorded in an append-only log (instrumentation; the
interpreter never reads the log). `run fx` marks the invocation of effect
`fx`'s body, `obs v` a value emitted by a body or a top-level read,
`cleanupRun c t` the invocation of user cleanup `c` (`t` = it throws),
`cleanupError m c` a `console.error` line, `flushStart`/`flushEnd` bracket a
flush activation that passed the re-entrancy guard, and `failed e` marks an
exception reaching the top level. -/
inductive Event where
  | run (fx : Nat)
  | obs (v : SVal)
  | cleanupRun (c : Nat) (throws : Bool)
  | cleanupError (msg : String) (c : Nat)
  | flushStart
  | flushEnd
  | failed (e : Err)
  deriving DecidableEq, Repr

/-- Argument of a signal write: a plain value or an updater function, as in
`update(next | (prev => next))`. -/
inductive WArg where
  | val (v : SVal)
  | fn (f : SVal → SVal)

/-- Deep embedding of effect bodies / reader functions.  A body can read a
signal (the continuation receives the value, so dependencies may be
conditional), write a signal, perform an untracked sub-computation, emit an
observation, throw, or return: `ret v c` finishes with result value `v`
(used when the body is an `untracked` reader) and optional user cleanup `c`
(used when the body is an effect body). -/
inductive Body where
  | ret (v : SVal) (c : Option Cleanup)
  | readS (s : Nat) (k : SVal → Body)
  | writeS (s : Nat) (w : WArg) (k : Body)
  | untrk (inner : Body) (k : SVal → Body)
  | emit (v : SVal) (k : Body)
  | throwB (code : Nat)

/-- A signal cell: current value, equality predicate, and the observer set
`dependencies` (a JavaScript `Set`, modelled as a duplicate-free list in
insertion order). -/
structure SigC where
  value : SVal
  eq : SVal → SVal → Bool
  deps : List Nat

/-- Default cell used to totalise out-of-range accesses; its equality
predicate is constantly true so that writes to invalid ids are inert. -/
def sigDefault : SigC := ⟨.undef, fun _ _ => true, []⟩

/-- An effect record: `isMemo` kind flag, the (re-runnable) body, the set of
unlinkers (one per distinct signal read during the most recent run, modelled
by the signal's id), the stored user cleanup, and the ghost field `lastReads`
recording the signals tracked-read during the most recent run (instrumentation
only; the interpreter never branches on it). -/
structure FxC where
  isMemo : Bool
  body : Body
  unlinks : List Nat
  userCleanup : Option Cleanup
  lastReads : List Nat

/-- Default effect record used to totalise out-of-range accesses. -/
def fxDefault : FxC := ⟨false, .ret .undef none, [], none, []⟩

/-- The store: signal cells and effect records addressed by index, batch
depth, the `#isUpdating` and `#isTracking` flags, the pending-effect set and
running-effect stack (top = head), and the event log. -/
structure St where
  sigs : List SigC
  fxs : List FxC
  batchLevel : Nat
  isUpdating : Bool
  isTracking : Bool
  pending : List Nat
  running : List Nat
  log : List Event

attribute [ext] St

/-- `Set.add` on the pending set: append if absent (JavaScript `Set` keeps
insertion order and ignores re-insertion). -/
def pushPending (p : List Nat) (fx : Nat) : List Nat :=
  if fx ∈ p then p else p ++ [fx]

/-- State effect of the signal `read` accessor on the store, with the current
observer `fx` on top of the running stack and tracking on: register `fx` as
an observer of `s` (idempotent) and install the unlinker into `fx`; the ghost
`lastReads` additionally records the (tracked) read. -/
def trackRead (st : St) (s : Nat) (fx : Nat) : St :=
  let sc := st.sigs.getD s sigDefault
  let f := st.fxs.getD fx fxDefault
  let f1 := if s ∈ f.lastReads then f else
    {f with lastReads := f.lastReads ++ [s]}
  if fx ∈ sc.deps then
    {st with fxs := st.fxs.set fx f1}
  else
    {st with
      sigs := st.sigs.set s {sc with deps := sc.deps ++ [fx]},
      fxs := st.fxs.set fx {f1 with unlinks := f1.unlinks ++ [s]}}

/-- State effect of the signal `read` accessor: a tracked read with a current
observer installs edges via `trackRead`; an untracked read (tracking off or
no running effect) changes nothing.  The `s < st.sigs.length` test only
totalises the model: in the source every reader closure refers to an existing
cell. -/
def readSt (st : St) (s : Nat) : St :=
  if st.isTracking then
    if s < st.sigs.length then
      match st.running.head? with
      | some fx => trackRead st s fx
      | none => st
    else st
  else st

/-- The signal `read` accessor: possibly install edges, and return the
current value (which the edge installation never changes). -/
def read (st : St) (s : Nat) : St × SVal :=
  (readSt st s, (st.sigs.getD s sigDefault).value)

/-- Invoke every unlinker of effect `fx`: each removes `fx` from the
corresponding signal's observer set. -/
def unlinkAll (sigs : List SigC) (fx : Nat) : List Nat → List SigC
  | [] => sigs
  | s :: rest =>
      let sc := sigs.getD s sigDefault
      unlinkAll (sigs.set s {sc with deps := sc.deps.erase fx}) fx rest

/-- Log events produced by invoking a stored user cleanup: the invocation
itself and, when it throws, the `console.error` line — the exception is
caught there and never propagated. -/
def cleanupEvents : Option Cleanup → List Event
  | none => []
  | some c =>
      if c.throws then [.cleanupRun c.cid true, .cleanupError cleanupErrMsg c.cid]
      else [.cleanupRun c.cid false]

/-- The `cleanup` routine of `#createEffect` (also the cancel handle returned
to the caller): invoke and clear all unlinkers, then, if a user cleanup is
stored, invoke it, catching and logging any failure.  Note that the source
does not clear the `onCleanup` slot. -/
def cleanup (st : St) (fx : Nat) : St :=
  let f := st.fxs.getD fx fxDefault
  {st with
    sigs := unlinkAll st.sigs fx f.unlinks,
    fxs := st.fxs.set fx {f with unlinks := []},
    log := st.log ++ cleanupEvents f.userCleanup}

/-- The scheduling loop of `write`: insert every current observer of signal
`s` into the store's pending set, in observer-set order. -/
def scheduleDeps (st : St) (s : Nat) : St :=
  {st with pending := (st.sigs.getD s sigDefault).deps.foldl pushPending st.pending}

/-- Resolve the argument of `update`: apply it to the previous value when it
is a function. -/
def resolveW (w : WArg) (prev : SVal) : SVal :=
  match w with
  | .val v => v
  | .fn f => f prev

/-- The memo snapshot taken at the start of a flush:
`Array.from(pending).filter(fx => fx.isMemo)`. -/
def memoSnap (st : St) : List Nat :=
  st.pending.filter (fun fx => (st.fxs.getD fx fxDefault).isMemo)

/-- Operations of the interpreter, mirroring the store's routines: running a
body, `update()` of an effect, `#flush()`, a signal `write`, the loops over
a snapshot of pending effects (`del` = the memo phase, which deletes each
effect from the pending set after running it), `#createEffect`, and
`batch`. -/
inductive Op where
  | body (b : Body)
  | update (fx : Nat)
  | flush
  | write (s : Nat) (w : WArg)
  | runList (l : List Nat) (del : Bool)
  | createEffect (isMemo : Bool) (b : Body)
  | batch (b : Body)

/-- Result of an interpreter step: the new store, the propagating exception
if any, and — for body runs — the returned value and user cleanup. -/
structure Res where
  st : St
  err : Option Err
  val : SVal
  cln : Option Cleanup

/-- Entry of `update()` past the cyclic check: push the effect on the running
stack; the ghost `lastReads` restarts empty for the new run, and the body
invocation is logged. -/
def updEnter (st : St) (fx : Nat) : St :=
  {st with
    running := fx :: st.running,
    fxs := st.fxs.set fx {(st.fxs.getD fx fxDefault) with lastReads := []},
    log := st.log ++ [.run fx]}

/-- Normal exit of `update()`: store the returned user cleanup
(`onCleanup = execute()`), then pop the running stack. -/
def updExitOk (st : St) (fx : Nat) (cln : Option Cleanup) : St :=
  {st with
    fxs := st.fxs.set fx {(st.fxs.getD fx fxDefault) with userCleanup := cln},
    running := st.running.tail}

/-- Exceptional exit of `update()`: `catch { cleanup(); throw }` then the
`finally` pop. -/
def updExitErr (st : St) (fx : Nat) : St :=
  let st3 := cleanup st fx
  {st3 with running := st3.running.tail}

/-- Start of a flush activation: set `#isUpdating` (bracketed by a
`flushStart` log event). -/
def flushEnter (st : St) : St :=
  {st with isUpdating := true, log := st.log ++ [.flushStart]}

/-- End of the memo phase: clear `#isUpdating`. -/
def flushMid (st : St) : St := {st with isUpdating := false}

/-- The effect-phase snapshot is taken and the pending set cleared. -/
def flushClear (st : St) : St := {st with pending := []}

/-- Log the end of a flush activation. -/
def logEnd (st : St) : St := {st with log := st.log ++ [.flushEnd]}

/-- `value = newValue` in `write`. -/
def writeValue (st : St) (s : Nat) (nv : SVal) : St :=
  {st with sigs := st.sigs.set s {(st.sigs.getD s sigDefault) with value := nv}}

/-- `pendingEffects.delete(fx)` after a memo-phase run. -/
def erasePending (st : St) (fx : Nat) : St :=
  {st with pending := st.pending.erase fx}

/-- Allocation of a fresh effect record by `#createEffect`. -/
def pushFx (st : St) (isMemo : Bool) (b : Body) : St :=
  {st with fxs := st.fxs ++ [⟨isMemo, b, [], none, []⟩]}

/-- `batchLevel++`. -/
def batchEnter (st : St) : St := {st with batchLevel := st.batchLevel + 1}

/-- `--batchLevel` in the `finally`. -/
def batchExit (st : St) : St := {st with batchLevel := st.batchLevel - 1}

/-- Set the tracking flag (used by `untracked`). -/
def setTracking (st : St) (b : Bool) : St := {st with isTracking := b}

/-- Log an observation emitted by a body. -/
def logObs (st : St) (v : SVal) : St := {st with log := st.log ++ [.obs v]}

/-- The fueled interpreter.  Each case is a direct translation of the
corresponding routine of the source; fuel only totalises the mutual
recursion between bodies, writes, flushes and effect updates. -/
def interp : Nat → St → Op → Res
  | 0, st, _ => ⟨st, some .fuelOut, .undef, none⟩
  | Nat.succ n, st, op =>
    match op with
    | .body b =>
      match b with
      | .ret v c => ⟨st, none, v, c⟩
      | .readS s k =>
          interp n (readSt st s) (.body (k (st.sigs.getD s sigDefault).value))
      | .writeS s w k =>
          let r := interp n st (.write s w)
          match r.err with
          | some e => ⟨r.st, some e, .undef, none⟩
          | none => interp n r.st (.body k)
      | .untrk inner k =>
          let r := interp n (setTracking st false) (.body inner)
          match r.err with
          | some e => ⟨r.st, some e, .undef, none⟩
          | none => interp n (setTracking r.st st.isTracking) (.body (k r.val))
      | .emit v k => interp n (logObs st v) (.body k)
      | .throwB c => ⟨st, some (.user c), .undef, none⟩
    | .update fx =>
      let st1 := cleanup st fx
      if fx ∈ st1.running then ⟨st1, some .cyclic, .undef, none⟩
      else
        let r := interp n (updEnter st1 fx) (.body (st1.fxs.getD fx fxDefault).body)
        match r.err with
        | some e => ⟨updExitErr r.st fx, some e, .undef, none⟩
        | none => ⟨updExitOk r.st fx r.cln, none, .undef, none⟩
    | .flush =>
      if st.isUpdating then ⟨st, none, .undef, none⟩
      else
        let r1 := interp n (flushEnter st) (.runList (memoSnap (flushEnter st)) true)
        match r1.err with
        | some e => ⟨r1.st, some e, .undef, none⟩
        | none =>
          let st2 := flushMid r1.st
          if 0 < st2.batchLevel then ⟨logEnd st2, none, .undef, none⟩
          else
            let r2 := interp n (flushClear st2) (.runList st2.pending false)
            match r2.err with
            | some e => ⟨r2.st, some e, .undef, none⟩
            | none => ⟨logEnd r2.st, none, .undef, none⟩
    | .write s w =>
      let sc := st.sigs.getD s sigDefault
      let nv := resolveW w sc.value
      if sc.eq sc.value nv then ⟨st, none, .undef, none⟩
      else
        let r := interp n (scheduleDeps (writeValue st s nv) s) .flush
        ⟨r.st, r.err, .undef, none⟩
    | .runList l del =>
      match l with
      | [] => ⟨st, none, .undef, none⟩
      | fx :: rest =>
        let r := interp n st (.update fx)
        match r.err with
        | some e => ⟨r.st, some e, .undef, none⟩
        | none =>
          interp n (if del then erasePending r.st fx else r.st) (.runList rest del)
    | .createEffect isMemo b =>
      let r := interp n (pushFx st isMemo b) (.update st.fxs.length)
      ⟨r.st, r.err, .undef, none⟩
    | .batch b =>
      let r := interp n (batchEnter st) (.body b)
      let st2 := batchExit r.st
      if st2.batchLevel = 0 then
        let rf := interp n st2 .flush
        ⟨rf.st, (match rf.err with | some e => some e | none => r.err), .undef, none⟩
      else ⟨st2, r.err, .undef, none⟩

/-- Top-level operations a client of the store performs. -/
inductive Top where
  | mkSig (init : SVal) (eqf : SVal → SVal → Bool)
  | mkEffect (isMemo : Bool) (b : Body)
  | writeT (s : Nat) (w : WArg)
  | readT (s : Nat)
  | batchT (b : Body)
  | untrackedT (b : Body)
  | cancelT (fx : Nat)

/-- A top-level caller catches exceptions (recording them in the log) and
continues, like the library's test-suite does. -/
def settle (r : Res) : St :=
  match r.err with
  | none => r.st
  | some e => {r.st with log := r.st.log ++ [.failed e]}

/-- Run one top-level operation.  `untrackedT` goes through the same
`untrk` path as in-body untracked reads, because the source has a single
`untracked` method. -/
def runTop (n : Nat) (st : St) (t : Top) : St :=
  match t with
  | .mkSig init eqf => {st with sigs := st.sigs ++ [⟨init, eqf, []⟩]}
  | .mkEffect m b => settle (interp n st (.createEffect m b))
  | .writeT s w => settle (interp n st (.write s w))
  | .readT s =>
      let p := read st s
      {p.1 with log := p.1.log ++ [.obs p.2]}
  | .batchT b => settle (interp n st (.batch b))
  | .untrackedT b => settle (interp n st (.body (.untrk b (fun v => .ret v none))))
  | .cancelT fx => cleanup st fx

/-- A fresh store, as produced by `createStore()`. -/
def st0 : St := ⟨[], [], 0, false, true, [], [], []⟩

/-- Execute a program against a fresh store. -/
def execProg (n : Nat) (p : List Top) : St :=
  p.foldl (fun st t => runTop n st t) st0

/-- The default `structuralEqual` restricted to scalar signal values: on
scalars structural equality coincides with `Object.is`. -/
def sEq (a b : SVal) : Bool := a = b

/-! The structural-equality helper (`equal.ts`).  Values are modelled with an
explicit heap so that reference identity, shared substructure and cycles are
expressible: a `JVal` is a primitive or a reference into a heap of objects.
The modelled object kinds are plain records (keys are numbers standing for
property names), arrays and typed numeric arrays; `Map`, `Set`, `RegExp` and
custom `valueOf` objects are not representable, and their branches of
`deepEqual` have no counterpart here. -/

/-- JavaScript primitive values: a number, `NaN`, or `undefined`. -/
inductive Prim where
  | num (n : Int)
  | nan
  | undef
  deriving DecidableEq, Repr

/-- A JavaScript value: a primitive or a reference to a heap object. -/
inductive JVal where
  | prim (p : Prim)
  | ref (addr : Nat)
  deriving DecidableEq, Repr

/-- Heap objects: plain records, arrays, and typed numeric arrays (with a
constructor tag `ty` distinguishing `Uint8Array`, `Float64Array`, ...). -/
inductive HObj where
  | record (fields : List (Nat × JVal))
  | arr (elems : List JVal)
  | typedArr (ty : Nat) (elems : List Prim)
  deriving DecidableEq, Repr

/-- `Object.is`: `NaN` equals `NaN`; objects compare by reference. -/
def objectIs (a b : JVal) : Bool := a = b

/-- The loose comparator `(lhs, rhs) => lhs == rhs || (isNaN lhs && isNaN rhs)`
restricted to the modelled values (`==` on two objects is identity; the
coercing cross-type cases of `==` do not arise for the claims below). -/
def looseCmp (a b : JVal) : Bool :=
  match a, b with
  | .prim .nan, .prim .nan => true
  | .prim (.num x), .prim (.num y) => x = y
  | .prim .undef, .prim .undef => true
  | .ref x, .ref y => x = y
  | _, _ => false

/-- Raw strict (in)equality `===` on typed-array elements: `NaN !== NaN`. -/
def strictTriple (a b : Prim) : Bool :=
  match a, b with
  | .nan, _ => false
  | _, .nan => false
  | .num x, .num y => x = y
  | .undef, .undef => true
  | _, _ => false

/-- `a.constructor` as a tag: two objects pass the constructor check iff the
tags agree. -/
def ctorTag : HObj → Nat
  | .record _ => 0
  | .arr _ => 1
  | .typedArr ty _ => 2 + ty

/-- The comparison cache: left-operand address ↦ set of right-operand
addresses already entered (and, in this implementation, already finished). -/
abbrev Cache := List (Nat × List Nat)

/-- `params.cache.get(a)`. -/
def cacheGet (c : Cache) (a : Nat) : Option (List Nat) :=
  (c.find? (fun p => p.1 = a)).map (fun p => p.2)

/-- `rhsValues.add(b)` (creating the entry if needed). -/
def cacheAdd (c : Cache) (a b : Nat) : Cache :=
  match cacheGet c a with
  | none => c ++ [(a, [b])]
  | some _ => c.map (fun p => if p.1 = a then (p.1, p.2 ++ [b]) else p)

/-- Parameters of `deepEqual`: the primitive comparator and the maximum
depth (`none` = `Infinity`). -/
structure DEP where
  compare : JVal → JVal → Bool
  maxDepth : Option Nat

/-- `++depth > params.maxDepth`. -/
def depthExceeded (md : Option Nat) (d : Nat) : Bool :=
  match md with
  | none => false
  | some m => decide (m < d)

/-- Work items of the `deepEqual` recursion: one pair, the elementwise array
loop, or the record-field loop (`fields` keeps the whole right-hand record
for property lookup, where a missing property reads as `undefined`). -/
inductive DJob where
  | one (a b : JVal)
  | many (xs ys : List JVal)
  | fields (fa : List (Nat × JVal)) (fb : List (Nat × JVal))

/-- Property lookup `b[key]`. -/
def fieldGet (fb : List (Nat × JVal)) (k : Nat) : JVal :=
  ((fb.find? (fun q => q.1 = k)).map (fun q => q.2)).getD (.prim .undef)

/-- The `deepEqual` recursion of `equal.ts`, threading the mutable comparison
cache.  Fuel only totalises the recursion (heaps may contain cycles).  The
order of checks per pair is that of the source: depth/primitive fast path,
`a === b`, constructor check, cache check and insertion, then the per-kind
branches (arrays, typed arrays, records). -/
def deepEqualGo (h : List HObj) (p : DEP) : Nat → DJob → Nat → Cache → Bool × Cache
  | 0, _, _, c => (false, c)
  | Nat.succ fuel, .one a b, depth, c0 =>
    if depthExceeded p.maxDepth (depth + 1) then (p.compare a b, c0)
    else
      match a, b with
      | .prim q, b' => (p.compare (.prim q) b', c0)
      | a', .prim q => (p.compare a' (.prim q), c0)
      | .ref x, .ref y =>
        if x = y then (true, c0)
        else
          let oa := h.getD x (.record [])
          let ob := h.getD y (.record [])
          if ctorTag oa ≠ ctorTag ob then (false, c0)
          else
            let hit : Bool := match cacheGet c0 x with
              | some rhs => decide (y ∈ rhs)
              | none => false
            if hit then (false, c0)
            else
              let c1 := cacheAdd c0 x y
              match oa, ob with
              | .arr ea, .arr eb =>
                  if ea.length ≠ eb.length then (false, c1)
                  else deepEqualGo h p fuel (.many ea eb) (depth + 1) c1
              | .typedArr _ ea, .typedArr _ eb =>
                  if ea.length ≠ eb.length then (false, c1)
                  else ((ea.zip eb).all (fun q => strictTriple q.1 q.2), c1)
              | .record fa, .record fb =>
                  if fb.length ≠ fa.length then (false, c1)
                  else deepEqualGo h p fuel (.fields fa fb) (depth + 1) c1
              | _, _ => (false, c1)
  | Nat.succ fuel, .many xs ys, depth, c0 =>
    match xs, ys with
    | [], [] => (true, c0)
    | x :: xs', y :: ys' =>
        let r := deepEqualGo h p fuel (.one x y) depth c0
        if r.1 then deepEqualGo h p fuel (.many xs' ys') depth r.2 else (false, r.2)
    | _, _ => (false, c0)
  | Nat.succ fuel, .fields fa fb, depth, c0 =>
    match fa with
    | [] => (true, c0)
    | (k, va) :: fa' =>
        let r := deepEqualGo h p fuel (.one va (fieldGet fb k)) depth c0
        if r.1 then deepEqualGo h p fuel (.fields fa' fb) depth r.2 else (false, r.2)

/-- `equal(a, b, options)`: run `deepEqual` with a fresh cache. -/
def equal (h : List HObj) (p : DEP) (fuel : Nat) (a b : JVal) : Bool :=
  (deepEqualGo h p fuel (.one a b) 0 []).1

/-- The parameter set of `structuralEqual = equalFunc({compare: 'strict'})`. -/
def strictDEP : DEP := ⟨objectIs, none⟩

/-- The parameter set of `looseStructuralEqual = equalFunc({compare: 'loose'})`. -/
def looseDEP : DEP := ⟨looseCmp, none⟩

/-- `structuralEqual(a, b)` over a given heap. -/
def structuralEqual (h : List HObj) (fuel : Nat) (a b : JVal) : Bool :=
  equal h strictDEP fuel a b

/-- `looseStructuralEqual(a, b)` over a given heap. -/
def looseStructuralEqual (h : List HObj) (fuel : Nat) (a b : JVal) : Bool :=
  equal h looseDEP fuel a b

/-! Concrete programs used to test the claims, together with small value
helpers standing for the arithmetic inside user bodies. -/

/-- Addition of signal values. -/
def addS : SVal → SVal → SVal
  | .i x, .i y => .i (x + y)
  | _, _ => SVal.undef

/-- Pairing helper `(a, b) ↦ 10 a + b`, used by an effect to record which
pair of values it observed. -/
def tenS : SVal → SVal → SVal
  | .i x, .i y => .i (10 * x + y)
  | _, _ => SVal.undef

/-- Increment. -/
def incS : SVal → SVal
  | .i x => .i (x + 1)
  | _ => SVal.undef

/-- The effects directly invoked by each flush activation, read off the log:
`run` events at bracket depth 1 relative to the start of the scan (nested
activations contribute their `run` events at greater depth). -/
def directRuns : List Event → Nat → List Nat
  | [], _ => []
  | .flushStart :: rest, d => directRuns rest (d + 1)
  | .flushEnd :: rest, d => directRuns rest (d - 1)
  | .run fx :: rest, d =>
      if d = 1 then fx :: directRuns rest d else directRuns rest d
  | _ :: rest, d => directRuns rest d

/-- The `run` events of a log fragment, in order. -/
def runsOf (l : List Event) : List Nat :=
  l.filterMap (fun e => match e with | .run fx => some fx | _ => none)

/-- A memo chain: signal `s` (id 0), memo `m1 = s` (hidden signal id 1,
effect 0), memo `m2 = m1` (hidden signal id 2, effect 1), and a plain effect
(effect 2) that reads `s` and `m2` and emits `10·s + m2`.  Each `memo` is its
hidden signal (created first, initialised to `undefined`) plus a memo-kind
effect writing the compute result, exactly as in the source's `memo`. -/
def c1prog : List Top :=
  [ .mkSig (.i 0) sEq,
    .mkSig .undef sEq,
    .mkEffect true (.readS 0 (fun v => .writeS 1 (.val v) (.ret .undef none))),
    .mkSig .undef sEq,
    .mkEffect true (.readS 1 (fun v => .writeS 2 (.val v) (.ret .undef none))),
    .mkEffect false (.readS 0 (fun a => .readS 2 (fun b =>
      .emit (tenS a b) (.ret .undef none)))),
    .writeT 0 (.val (.i 1)) ]

/-- Signals `flag` (id 0), `s` (id 1); memo `B` (hidden signal 2, effect 0)
reads `flag` and, once `flag = 1`, also `s`, writing `s` into its signal;
memo `A` (hidden signal 3, effect 1) reads `s` and `B`'s signal and writes
their sum.  The dependency graph is acyclic.  After `flag := 1`, the observer
list of `s` is `[A, B]`, so a write to `s` runs `A` in the memo phase before
`B` re-schedules it, and `A` runs again in the effect phase of the same
flush. -/
def c2prog : List Top :=
  [ .mkSig (.i 0) sEq,
    .mkSig (.i 0) sEq,
    .mkSig .undef sEq,
    .mkEffect true (.readS 0 (fun f =>
      if f = .i 1 then .readS 1 (fun v => .writeS 2 (.val v) (.ret .undef none))
      else .writeS 2 (.val (.i 0)) (.ret .undef none))),
    .mkSig .undef sEq,
    .mkEffect true (.readS 1 (fun v => .readS 2 (fun w =>
      .writeS 3 (.val (addS v w)) (.ret .undef none)))),
    .writeT 0 (.val (.i 1)),
    .writeT 1 (.val (.i 5)) ]

/-- One effect whose body returns a (non-throwing) user cleanup, followed by
two invocations of the cancel handle. -/
def c6prog : List Top :=
  [ .mkEffect false (.ret .undef (some ⟨7, false⟩)), .cancelT 0, .cancelT 0 ]

/-- A signal and a plain effect that reads it and throws (user exception 7)
once the value is `1`. -/
def c7pre : List Top :=
  [ .mkSig (.i 0) sEq,
    .mkEffect false (.readS 0 (fun v =>
      if v = .i 1 then .throwB 7 else .ret .undef none)) ]

/-- A batch body that writes `1` into signal 0 (scheduling the throwing
effect of `c7pre`) and then throws user exception 5. -/
def c7body : Body := .writeS 0 (.val (.i 1)) (.throwB 5)

/-- An effect whose user cleanup throws, then a write that re-runs it. -/
def c8prog : List Top :=
  [ .mkSig (.i 0) sEq,
    .mkEffect false (.readS 0 (fun _ => .ret .undef (some ⟨9, true⟩))),
    .writeT 0 (.val (.i 42)) ]

/-- Heap for the shared-substructure example: object 0 is `{x: o1, y: o1}`,
object 1 is `{x: o2, y: o2}`, and objects 2 (`o1`) and 3 (`o2`) are the
distinct but structurally equal records `{a: 1}`. -/
def h9 : List HObj :=
  [ .record [(0, .ref 2), (1, .ref 2)],
    .record [(0, .ref 3), (1, .ref 3)],
    .record [(5, .prim (.num 1))],
    .record [(5, .prim (.num 1))] ]

/-- Heap with two typed arrays of the same type and length holding `NaN` at
index 0. -/
def h10 : List HObj := [ .typedArr 9 [.nan], .typedArr 9 [.nan] ]

/-! The dependency-graph invariant of the store.  `lastReads` is the ghost
record of the signals tracked-read during an effect's most recent run; the
invariant ties the unlinker sets, the observer sets and the ghost together. -/

/-- Observer sets are duplicate-free and refer to allocated effects. -/
def DepsOk (st : St) : Prop :=
  ∀ i, i < st.sigs.length →
    ((st.sigs.getD i sigDefault).deps.Nodup ∧
      ∀ j ∈ (st.sigs.getD i sigDefault).deps, j < st.fxs.length)

/-- Unlinker sets and ghost read-sets are duplicate-free, refer to allocated
signals, and every unlinker corresponds to a signal read during the effect's
most recent run. -/
def FxOk (st : St) : Prop :=
  ∀ j, j < st.fxs.length →
    ((st.fxs.getD j fxDefault).unlinks.Nodup ∧
      (st.fxs.getD j fxDefault).lastReads.Nodup ∧
      (∀ s ∈ (st.fxs.getD j fxDefault).unlinks, s < st.sigs.length) ∧
      (∀ s ∈ (st.fxs.getD j fxDefault).unlinks,
        s ∈ (st.fxs.getD j fxDefault).lastReads))

/-- Edges are bidirectional: an effect observes a signal iff the signal's id
is in the effect's unlinker set. -/
def Coh (st : St) : Prop :=
  ∀ i, i < st.sigs.length → ∀ j, j < st.fxs.length →
    (j ∈ (st.sigs.getD i sigDefault).deps ↔ i ∈ (st.fxs.getD j fxDefault).unlinks)

/-- The running stack refers to allocated effects. -/
def RunOk (st : St) : Prop := ∀ j ∈ st.running, j < st.fxs.length

/-- The pending set refers to allocated effects. -/
def PendOk (st : St) : Prop := ∀ j ∈ st.pending, j < st.fxs.length

/-- The store invariant. -/
def StOk (st : St) : Prop := DepsOk st ∧ FxOk st ∧ Coh st ∧ RunOk st ∧ PendOk st

/-- The unlinker set and ghost read-set of an effect. -/
def pairOf (st : St) (fx : Nat) : List Nat × List Nat :=
  ((st.fxs.getD fx fxDefault).unlinks, (st.fxs.getD fx fxDefault).lastReads)

/-- Whether an operation runs a body attributed to the current stack top. -/
def isBodyOp : Op → Bool
  | .body _ => true
  | _ => false

/-- Whether an operation may perform tracked reads attributed to the effect
currently on top of the running stack: a body run does directly, and `batch`
runs its body with the same stack. -/
def headTouch : Op → Bool
  | .body _ => true
  | .batch _ => true
  | _ => false

/-- A log fragment is balanced when every failed user cleanup produced
exactly one `console.error` line (so error lines and throwing cleanup
invocations are in bijection) and every logged error line carries the literal
source prefix. -/
def balanced (t : List Event) : Prop :=
  ((t.filter (fun e => match e with | .cleanupError _ _ => true | _ => false)).length =
    (t.filter (fun e => match e with | .cleanupRun _ b => b | _ => false)).length) ∧
  ∀ m c, Event.cleanupError m c ∈ t → m = cleanupErrMsg

/-- Core frame facts preserved by every step of the interpreter: the signal
count is unchanged, the effect list only grows, pending stays duplicate-free,
the log is append-only with a balanced extension, and a cleared tracking flag
stays cleared. -/
def FFc (st st' : St) : Prop :=
  st'.sigs.length = st.sigs.length ∧
  st.fxs.length ≤ st'.fxs.length ∧
  (st.pending.Nodup → st'.pending.Nodup) ∧
  (∃ t, st'.log = st.log ++ t ∧ balanced t) ∧
  (st.isTracking = false → st'.isTracking = false)

/-- Frame facts holding from entry to exit of every interpreter operation:
the core facts, plus the running stack and batch depth are restored. -/
def FF (st st' : St) : Prop :=
  st'.running = st.running ∧ st'.batchLevel = st.batchLevel ∧ FFc st st'

/-- Steps that never invoke an effect body: under `#isUpdating = true` (the
memo phase of a flush in progress), the flag stays set and no `run` event is
appended. -/
def QuietStep (st st' : St) : Prop :=
  st.isUpdating = true →
    st'.isUpdating = true ∧ ∃ t, st'.log = st.log ++ t ∧ runsOf t = []

/-- Everything of the store except the signal cells' contents and the effect
records' contents is unchanged. -/
def SameCore (st st' : St) : Prop :=
  st'.running = st.running ∧ st'.pending = st.pending ∧ st'.log = st.log ∧
  st'.batchLevel = st.batchLevel ∧ st'.isTracking = st.isTracking ∧
  st'.isUpdating = st.isUpdating ∧ st'.sigs.length = st.sigs.length ∧
  st'.fxs.length = st.fxs.length

/-- Two signals and a plain effect that reads only signal 0. -/
def c3prog : List Top :=
  [ .mkSig (.i 0) sEq,
    .mkSig (.i 1) sEq,
    .mkEffect false (.readS 0 (fun v => .ret v none)) ]

/-- A store holding one signal observed by one effect whose body returned the
user cleanup `7`; the invariant holds by computation. -/
def c6st : St :=
  ⟨[⟨.i 5, sEq, [0]⟩], [⟨false, .ret .undef none, [0], some ⟨7, false⟩, [0]⟩],
    0, false, true, [], [], []⟩

/-- Append a log fragment, leaving the rest of the store untouched. -/
def appendLog (st : St) (t : List Event) : St := {st with log := st.log ++ t}

instance (st : St) : Decidable (DepsOk st) := by unfold DepsOk; infer_instance

instance (st : St) : Decidable (FxOk st) := by unfold FxOk; infer_instance

instance (st : St) : Decidable (Coh st) := by unfold Coh; infer_instance

instance (st : St) : Decidable (RunOk st) := by unfold RunOk; infer_instance

instance (st : St) : Decidable (PendOk st) := by unfold PendOk; infer_instance

instance (st : St) : Decidable (StOk st) := by unfold StOk; infer_instance

/-! Generic list lemmas. -/

theorem getD_set_ne {α : Type} (l : List α) (a d : α) {i j : Nat} (h : i ≠ j) :
    (l.set i a).getD j d = l.getD j d := by
  simp [List.getD_eq_getElem?_getD, List.getElem?_set_ne h]

theorem getD_set_self {α : Type} (l : List α) (a d : α) {i : Nat} (h : i < l.length) :
    (l.set i a).getD i d = a := by
  simp [List.getD_eq_getElem?_getD, List.getElem?_set_self h]

theorem getD_set_oob {α : Type} (l : List α) (a : α) {i : Nat} (h : l.length ≤ i) :
    l.set i a = l :=
  List.set_eq_of_length_le h

theorem set_getD_self {α : Type} (l : List α) (i : Nat) (d : α) :
    l.set i (l.getD i d) = l := by
  by_cases h : i < l.length
  · apply List.ext_getElem?
    intro j
    rcases eq_or_ne i j with rfl | hne
    · rw [List.getElem?_set_self h, List.getD_eq_getElem?_getD,
        List.getElem?_eq_getElem h]
      rfl
    · rw [List.getElem?_set_ne hne]
  · exact List.set_eq_of_length_le (le_of_not_lt h)

theorem nodup_append_singleton {α : Type} {l : List α} {a : α}
    (h : l.Nodup) (ha : a ∉ l) : (l ++ [a]).Nodup := by
  simp [List.nodup_append, h, ha]

/-! Facts about the pure steps of the store. -/

theorem pushPending_nodup {p : List Nat} (fx : Nat) (h : p.Nodup) :
    (pushPending p fx).Nodup := by
  unfold pushPending
  split
  · exact h
  · exact nodup_append_singleton h (by assumption)

theorem foldl_pushPending_nodup (l : List Nat) :
    ∀ p : List Nat, p.Nodup → (l.foldl pushPending p).Nodup := by
  induction l with
  | nil => exact fun p hp => hp
  | cons x xs ih => exact fun p hp => ih _ (pushPending_nodup x hp)

theorem mem_foldl_pushPending (l : List Nat) :
    ∀ (p : List Nat) (j : Nat), j ∈ l.foldl pushPending p → j ∈ p ∨ j ∈ l := by
  induction l with
  | nil => exact fun p j h => Or.inl h
  | cons x xs ih =>
      intro p j h
      rcases ih _ _ h with h1 | h1
      · unfold pushPending at h1
        split at h1
        · exact Or.inl h1
        · rcases List.mem_append.1 h1 with h2 | h2
          · exact Or.inl h2
          · simp at h2; subst h2; exact Or.inr (List.mem_cons_self _ _)
      · exact Or.inr (List.mem_cons_of_mem _ h1)

theorem mem_foldl_pushPending_of_mem (l : List Nat) :
    ∀ (p : List Nat) (j : Nat), j ∈ p → j ∈ l.foldl pushPending p := by
  induction l with
  | nil => exact fun p j h => h
  | cons x xs ih =>
      intro p j h
      refine ih _ _ ?_
      unfold pushPending
      split
      · exact h
      · exact List.mem_append_left _ h

theorem scheduleDeps_pending (st : St) (s : Nat) :
    (scheduleDeps st s).pending =
      ((st.sigs.getD s sigDefault).deps).foldl pushPending st.pending := rfl

theorem unlinkAll_length (fx : Nat) :
    ∀ (l : List Nat) (sigs : List SigC), (unlinkAll sigs fx l).length = sigs.length := by
  intro l
  induction l with
  | nil => intro sigs; rfl
  | cons s rest ih =>
      intro sigs
      rw [unlinkAll, ih, List.length_set]

theorem unlinkAll_getD_not_mem (fx : Nat) :
    ∀ (l : List Nat) (sigs : List SigC) (i : Nat), i ∉ l →
      (unlinkAll sigs fx l).getD i sigDefault = sigs.getD i sigDefault := by
  intro l
  induction l with
  | nil => intro sigs i _; rfl
  | cons s rest ih =>
      intro sigs i hi
      have hsi : s ≠ i := by rintro rfl; exact hi (List.mem_cons_self _ _)
      rw [unlinkAll, ih _ _ (fun h => hi (List.mem_cons_of_mem _ h)),
        getD_set_ne _ _ _ hsi]

theorem unlinkAll_getD_mem (fx : Nat) :
    ∀ (l : List Nat) (sigs : List SigC) (i : Nat), l.Nodup → i ∈ l →
      (unlinkAll sigs fx l).getD i sigDefault =
        ⟨(sigs.getD i sigDefault).value, (sigs.getD i sigDefault).eq,
          (sigs.getD i sigDefault).deps.erase fx⟩ := by
  intro l
  induction l with
  | nil => intro sigs i _ hi; cases hi
  | cons s rest ih =>
      intro sigs i hN hi
      rcases List.mem_cons.1 hi with rfl | hi'
      · have hnr : i ∉ rest := (List.nodup_cons.1 hN).1
        rw [unlinkAll, unlinkAll_getD_not_mem fx rest _ i hnr]
        by_cases h : i < sigs.length
        · exact getD_set_self _ _ _ h
        · rw [getD_set_oob _ _ (le_of_not_lt h)]
          have hd : sigs.getD i sigDefault = sigDefault := by
            simp [List.getD_eq_getElem?_getD, List.getElem?_eq_none (le_of_not_lt h)]
          rw [hd]
          rfl
      · have hs : s ≠ i := by
          rintro rfl
          exact (List.nodup_cons.1 hN).1 hi'
        rw [unlinkAll, ih _ _ (List.nodup_cons.1 hN).2 hi', getD_set_ne _ _ _ hs]

theorem balanced_nil : balanced [] := ⟨rfl, by simp⟩

theorem balanced_append {a b : List Event} (ha : balanced a) (hb : balanced b) :
    balanced (a ++ b) := by
  obtain ⟨c1, m1⟩ := ha
  obtain ⟨c2, m2⟩ := hb
  constructor
  · simp only [List.filter_append, List.length_append, c1, c2]
  · intro m c hm
    rcases List.mem_append.1 hm with h | h
    · exact m1 _ _ h
    · exact m2 _ _ h

theorem balanced_run (fx : Nat) : balanced [Event.run fx] := by
  refine ⟨rfl, ?_⟩
  intro m c h
  simp at h

theorem balanced_obs (v : SVal) : balanced [Event.obs v] := by
  refine ⟨rfl, ?_⟩
  intro m c h
  simp at h

theorem balanced_flushStart : balanced [Event.flushStart] := by
  refine ⟨rfl, ?_⟩
  intro m c h
  simp at h

theorem balanced_flushEnd : balanced [Event.flushEnd] := by
  refine ⟨rfl, ?_⟩
  intro m c h
  simp at h

theorem balanced_cleanupEvents (c : Option Cleanup) : balanced (cleanupEvents c) := by
  match c with
  | none => exact balanced_nil
  | some cl =>
      show balanced (if cl.throws = true
        then [Event.cleanupRun cl.cid true, Event.cleanupError cleanupErrMsg cl.cid]
        else [Event.cleanupRun cl.cid false])
      by_cases h : cl.throws = true
      · rw [if_pos h]
        refine ⟨rfl, ?_⟩
        intro m c hm
        simp at hm
        exact hm.1
      · rw [if_neg h]
        refine ⟨rfl, ?_⟩
        intro m c hm
        simp at hm

theorem ffc_self (st : St) : FFc st st :=
  ⟨rfl, le_refl _, id, ⟨[], by simp, balanced_nil⟩, id⟩

theorem ffc_comp {s1 s2 s3 : St} (h1 : FFc s1 s2) (h2 : FFc s2 s3) : FFc s1 s3 := by
  obtain ⟨c1, d1, e1, ⟨t1, f1, bal1⟩, g1⟩ := h1
  obtain ⟨c2, d2, e2, ⟨t2, f2, bal2⟩, g2⟩ := h2
  exact ⟨c2.trans c1, le_trans d1 d2, fun h => e2 (e1 h),
    ⟨t1 ++ t2, by rw [f2, f1, List.append_assoc], balanced_append bal1 bal2⟩,
    fun h => g2 (g1 h)⟩

theorem FF.refl (st : St) : FF st st := ⟨rfl, rfl, ffc_self st⟩

theorem FF.trans {s1 s2 s3 : St} (h1 : FF s1 s2) (h2 : FF s2 s3) : FF s1 s3 :=
  ⟨h2.1.trans h1.1, h2.2.1.trans h1.2.1, ffc_comp h1.2.2 h2.2.2⟩

theorem FF.ffc {s1 s2 : St} (h : FF s1 s2) : FFc s1 s2 := h.2.2

/-- Appending a balanced log fragment is an `FF` step. -/
theorem FF_log (st : St) (t : List Event) (hb : balanced t) :
    FF st {st with log := st.log ++ t} :=
  ⟨rfl, rfl, rfl, le_refl _, id, ⟨t, rfl, hb⟩, id⟩

theorem ffc_cleanup (st : St) (fx : Nat) : FFc st (cleanup st fx) :=
  ⟨by simp [cleanup, unlinkAll_length], by simp [cleanup, List.length_set], id,
    ⟨cleanupEvents ((st.fxs.getD fx fxDefault).userCleanup), rfl, balanced_cleanupEvents _⟩, id⟩

theorem ffc_updEnter (st : St) (fx : Nat) : FFc st (updEnter st fx) :=
  ⟨rfl, by simp [updEnter, List.length_set], id, ⟨[.run fx], rfl, balanced_run fx⟩, id⟩

theorem ffc_updExitOk (st : St) (fx : Nat) (cln : Option Cleanup) :
    FFc st (updExitOk st fx cln) :=
  ⟨rfl, by simp [updExitOk, List.length_set], id, ⟨[], by simp [updExitOk], balanced_nil⟩, id⟩

theorem ffc_tail (st : St) : FFc st {st with running := st.running.tail} :=
  ⟨rfl, le_refl _, id, ⟨[], by simp, balanced_nil⟩, id⟩

theorem ffc_batchEnter (st : St) : FFc st (batchEnter st) :=
  ⟨rfl, le_refl _, id, ⟨[], by simp [batchEnter], balanced_nil⟩, id⟩

theorem ffc_batchExit (st : St) : FFc st (batchExit st) :=
  ⟨rfl, le_refl _, id, ⟨[], by simp [batchExit], balanced_nil⟩, id⟩

theorem ff_flushEnter (st : St) : FF st (flushEnter st) :=
  ⟨rfl, rfl, rfl, le_refl _, id, ⟨[.flushStart], rfl, balanced_flushStart⟩, id⟩

theorem ff_flushMid (st : St) : FF st (flushMid st) :=
  ⟨rfl, rfl, rfl, le_refl _, id, ⟨[], by simp [flushMid], balanced_nil⟩, id⟩

theorem ff_flushClear (st : St) : FF st (flushClear st) :=
  ⟨rfl, rfl, rfl, le_refl _, fun _ => List.nodup_nil, ⟨[], by simp [flushClear], balanced_nil⟩, id⟩

theorem ff_logEnd (st : St) : FF st (logEnd st) :=
  ⟨rfl, rfl, rfl, le_refl _, id, ⟨[.flushEnd], rfl, balanced_flushEnd⟩, id⟩

theorem ff_writeValue (st : St) (s : Nat) (nv : SVal) : FF st (writeValue st s nv) :=
  ⟨rfl, rfl, by simp [writeValue, List.length_set], le_refl _, id,
    ⟨[], by simp [writeValue], balanced_nil⟩, id⟩

theorem ff_scheduleDeps (st : St) (s : Nat) : FF st (scheduleDeps st s) :=
  ⟨rfl, rfl, rfl, le_refl _, fun h => foldl_pushPending_nodup _ _ h,
    ⟨[], by simp [scheduleDeps], balanced_nil⟩, id⟩

theorem ff_erasePending (st : St) (fx : Nat) : FF st (erasePending st fx) :=
  ⟨rfl, rfl, rfl, le_refl _, fun h => h.erase fx, ⟨[], by simp [erasePending], balanced_nil⟩, id⟩

theorem ff_pushFx (st : St) (m : Bool) (b : Body) : FF st (pushFx st m b) :=
  ⟨rfl, rfl, rfl, by simp [pushFx], id, ⟨[], by simp [pushFx], balanced_nil⟩, id⟩

theorem ff_setTrackingFalse (st : St) : FF st (setTracking st false) :=
  ⟨rfl, rfl, rfl, le_refl _, id, ⟨[], by simp [setTracking], balanced_nil⟩, fun _ => rfl⟩

theorem ff_setTracking_restore {st r : St} (h : FF st r) :
    FF st (setTracking r st.isTracking) := by
  obtain ⟨a, b, c, d, e, f, _⟩ := h
  exact ⟨a, b, c, d, e, f, fun ht => ht⟩

theorem ff_logObs (st : St) (v : SVal) : FF st (logObs st v) :=
  ⟨rfl, rfl, rfl, le_refl _, id, ⟨[.obs v], rfl, balanced_obs v⟩, id⟩

theorem runsOf_append (a b : List Event) :
    runsOf (a ++ b) = runsOf a ++ runsOf b := by
  unfold runsOf
  exact List.filterMap_append _ _ _

theorem quiet_refl (st : St) : QuietStep st st :=
  fun h => ⟨h, ⟨[], by simp, rfl⟩⟩

theorem quiet_chain {s1 s2 s3 : St} (h1 : QuietStep s1 s2) (h2 : QuietStep s2 s3) :
    QuietStep s1 s3 := by
  intro hU
  obtain ⟨u1, t1, l1, r1⟩ := h1 hU
  obtain ⟨u2, t2, l2, r2⟩ := h2 u1
  exact ⟨u2, ⟨t1 ++ t2, by rw [l2, l1, List.append_assoc],
    by rw [runsOf_append, r1, r2]; rfl⟩⟩

theorem QuietStep.of_eq {s1 s2 : St} (hl : s2.log = s1.log) (hu : s2.isUpdating = s1.isUpdating) :
    QuietStep s1 s2 :=
  fun h => ⟨hu.trans h, ⟨[], by simp [hl], rfl⟩⟩

theorem quiet_log (st : St) (t : List Event) (h : runsOf t = []) :
    QuietStep st {st with log := st.log ++ t} :=
  fun hU => ⟨hU, ⟨t, rfl, h⟩⟩

theorem FF_of_sameCore {st st' : St} (h : SameCore st st') : FF st st' := by
  obtain ⟨h1, h2, h3, h4, h5, h6, h7, h8⟩ := h
  exact ⟨h1, h4, h7, le_of_eq h8.symm, fun hn => h2 ▸ hn, ⟨[], by simp [h3], balanced_nil⟩,
    fun ht => h5.trans ht⟩

theorem trackRead_sameCore (st : St) (s fx : Nat) : SameCore st (trackRead st s fx) := by
  unfold trackRead
  dsimp only
  split <;> exact ⟨rfl, rfl, rfl, rfl, rfl, rfl, by simp [List.length_set],
    by simp [List.length_set]⟩

theorem readSt_sameCore (st : St) (s : Nat) : SameCore st (readSt st s) := by
  unfold readSt
  split
  · split
    · match st.running.head? with
      | some fx => exact trackRead_sameCore st s fx
      | none => exact ⟨rfl, rfl, rfl, rfl, rfl, rfl, rfl, rfl⟩
    · exact ⟨rfl, rfl, rfl, rfl, rfl, rfl, rfl, rfl⟩
  · exact ⟨rfl, rfl, rfl, rfl, rfl, rfl, rfl, rfl⟩

theorem cleanup_frame (st : St) (fx : Nat) :
    FF st (cleanup st fx) ∧ (cleanup st fx).isTracking = st.isTracking ∧
      (cleanup st fx).isUpdating = st.isUpdating ∧
      (cleanup st fx).pending = st.pending ∧
      (cleanup st fx).fxs.length = st.fxs.length ∧
      (cleanup st fx).log = st.log ++ cleanupEvents ((st.fxs.getD fx fxDefault).userCleanup) ∧
      runsOf (cleanupEvents ((st.fxs.getD fx fxDefault).userCleanup)) = [] := by
  refine ⟨⟨rfl, rfl, by simp [cleanup, unlinkAll_length], by simp [cleanup, List.length_set],
    id, ⟨cleanupEvents ((st.fxs.getD fx fxDefault).userCleanup), rfl,
      balanced_cleanupEvents _⟩, id⟩,
    rfl, rfl, rfl, by simp [cleanup, List.length_set], rfl, ?_⟩
  unfold cleanupEvents runsOf
  split
  · rfl
  · split <;> rfl

/-- Frame theorem for the interpreter: every operation restores the running
stack and the batch depth, keeps the signal count, only grows the effect
list, preserves duplicate-freedom of the pending set, extends the log by a
balanced fragment, never turns tracking back on; on success it preserves the
tracking flag; and the operations reachable from inside an effect body stay
quiet (invoke no effect body) while `#isUpdating` is set. -/
theorem interp_frame (n : Nat) : ∀ (st : St) (op : Op),
    FF st (interp n st op).st ∧
    ((interp n st op).err = none → (interp n st op).st.isTracking = st.isTracking) ∧
    (match op with
     | .body _ => QuietStep st (interp n st op).st
     | .write _ _ => QuietStep st (interp n st op).st
     | .flush => QuietStep st (interp n st op).st
     | _ => True) := by
  induction n with
  | zero =>
      intro st op
      refine ⟨FF.refl st, fun _ => rfl, ?_⟩
      cases op <;> first | trivial | exact quiet_refl st
  | succ n ih =>
      intro st op
      cases op with
      | body b =>
        cases b with
        | ret v c => exact ⟨FF.refl st, fun _ => rfl, quiet_refl st⟩
        | readS s k =>
            obtain ⟨hc1, hc2, hc3, hc4, hc5, hc6, _, _⟩ := readSt_sameCore st s
            obtain ⟨hFF, hTr, hQ⟩ := ih (readSt st s) (.body (k (st.sigs.getD s sigDefault).value))
            simp only [interp]
            exact ⟨(FF_of_sameCore (readSt_sameCore st s)).trans hFF,
              fun h => (hTr h).trans hc5,
              quiet_chain (QuietStep.of_eq hc3 hc6) hQ⟩
        | writeS s w k =>
            obtain ⟨hFF1, hTr1, hQ1⟩ := ih st (.write s w)
            simp only [interp]
            cases he : (interp n st (.write s w)).err with
            | some e =>
                simp only [he]
                exact ⟨hFF1, fun h => absurd h (by simp), hQ1⟩
            | none =>
                simp only [he]
                obtain ⟨hFF2, hTr2, hQ2⟩ := ih (interp n st (.write s w)).st (.body k)
                exact ⟨hFF1.trans hFF2, fun h => (hTr2 h).trans (hTr1 he), quiet_chain hQ1 hQ2⟩
        | untrk inner k =>
            obtain ⟨hFFi, hTri, hQi⟩ := ih (setTracking st false) (.body inner)
            simp only [interp]
            cases he : (interp n (setTracking st false) (.body inner)).err with
            | some e =>
                simp only [he]
                exact ⟨(ff_setTrackingFalse st).trans hFFi, fun h => absurd h (by simp),
                  quiet_chain (QuietStep.of_eq rfl rfl) hQi⟩
            | none =>
                simp only [he]
                obtain ⟨hFFk, hTrk, hQk⟩ :=
                  ih (setTracking (interp n (setTracking st false) (.body inner)).st st.isTracking)
                    (.body (k (interp n (setTracking st false) (.body inner)).val))
                refine ⟨(ff_setTracking_restore ((ff_setTrackingFalse st).trans hFFi)).trans hFFk,
                  fun h => hTrk h, ?_⟩
                exact quiet_chain (quiet_chain (QuietStep.of_eq rfl rfl) hQi)
                  (quiet_chain (QuietStep.of_eq rfl rfl) hQk)
        | emit v k =>
            obtain ⟨hFF, hTr, hQ⟩ := ih (logObs st v) (.body k)
            simp only [interp]
            refine ⟨(ff_logObs st v).trans hFF, fun h => hTr h, ?_⟩
            exact quiet_chain (quiet_log st [.obs v] rfl) hQ
        | throwB c => exact ⟨FF.refl st, fun h => by simp [interp] at h, quiet_refl st⟩
      | update fx =>
        simp only [interp]
        by_cases hmem : fx ∈ (cleanup st fx).running
        · rw [if_pos hmem]
          exact ⟨⟨rfl, rfl, ffc_cleanup st fx⟩, fun _ => rfl, trivial⟩
        · rw [if_neg hmem]
          set R := interp n (updEnter (cleanup st fx) fx)
            (.body ((cleanup st fx).fxs.getD fx fxDefault).body) with hRdef
          obtain ⟨hFF2, hTr2, _⟩ :=
            ih (updEnter (cleanup st fx) fx) (.body ((cleanup st fx).fxs.getD fx fxDefault).body)
          rw [← hRdef] at hFF2 hTr2
          obtain ⟨hr2, hb2, hcc2⟩ := hFF2
          have hrun : R.st.running.tail = st.running := by rw [hr2]; rfl
          cases he : R.err with
          | some e =>
              simp only [he]
              refine ⟨⟨?_, ?_, ?_⟩, fun h => absurd h (by simp), trivial⟩
              · show (cleanup R.st fx).running.tail = st.running
                exact hrun
              · exact hb2
              · exact ffc_comp (ffc_comp (ffc_comp (ffc_cleanup st fx) (ffc_updEnter _ fx)) hcc2)
                  (ffc_comp (ffc_cleanup _ fx) (ffc_tail _))
          | none =>
              simp only [he]
              refine ⟨⟨?_, ?_, ?_⟩, fun _ => hTr2 he, trivial⟩
              · exact hrun
              · exact hb2
              · exact ffc_comp (ffc_comp (ffc_comp (ffc_cleanup st fx) (ffc_updEnter _ fx)) hcc2)
                  (ffc_updExitOk _ fx _)
      | flush =>
        simp only [interp]
        by_cases hU : st.isUpdating
        · rw [if_pos hU]
          exact ⟨FF.refl st, fun _ => rfl, quiet_refl st⟩
        · rw [if_neg hU]
          obtain ⟨hFF1, hTr1, _⟩ :=
            ih (flushEnter st) (.runList (memoSnap (flushEnter st)) true)
          cases he1 : (interp n (flushEnter st) (.runList (memoSnap (flushEnter st)) true)).err with
          | some e =>
              simp only [he1]
              refine ⟨(ff_flushEnter st).trans hFF1, fun h => absurd h (by simp), ?_⟩
              exact fun hUp => absurd hUp hU
          | none =>
              simp only [he1]
              by_cases hB : 0 < (flushMid (interp n (flushEnter st)
                  (.runList (memoSnap (flushEnter st)) true)).st).batchLevel
              · rw [if_pos hB]
                refine ⟨((ff_flushEnter st).trans hFF1).trans
                    ((ff_flushMid _).trans (ff_logEnd _)), fun _ => hTr1 he1, ?_⟩
                exact fun hUp => absurd hUp hU
              · rw [if_neg hB]
                obtain ⟨hFF2, hTr2, _⟩ :=
                  ih (flushClear (flushMid (interp n (flushEnter st)
                      (.runList (memoSnap (flushEnter st)) true)).st))
                    (.runList (flushMid (interp n (flushEnter st)
                      (.runList (memoSnap (flushEnter st)) true)).st).pending false)
                cases he2 : (interp n (flushClear (flushMid (interp n (flushEnter st)
                    (.runList (memoSnap (flushEnter st)) true)).st))
                    (.runList (flushMid (interp n (flushEnter st)
                      (.runList (memoSnap (flushEnter st)) true)).st).pending false)).err with
                | some e =>
                    simp only [he2]
                    refine ⟨(((ff_flushEnter st).trans hFF1).trans
                      ((ff_flushMid _).trans (ff_flushClear _))).trans hFF2,
                      fun h => absurd h (by simp), ?_⟩
                    exact fun hUp => absurd hUp hU
                | none =>
                    simp only [he2]
                    refine ⟨((((ff_flushEnter st).trans hFF1).trans
                      ((ff_flushMid _).trans (ff_flushClear _))).trans hFF2).trans
                      (ff_logEnd _), fun _ => (hTr2 he2).trans (hTr1 he1), ?_⟩
                    exact fun hUp => absurd hUp hU
      | write s w =>
        simp only [interp]
        by_cases heq : ((st.sigs.getD s sigDefault).eq (st.sigs.getD s sigDefault).value
            (resolveW w (st.sigs.getD s sigDefault).value)) = true
        · rw [if_pos heq]
          exact ⟨FF.refl st, fun _ => rfl, quiet_refl st⟩
        · rw [if_neg heq]
          obtain ⟨hFF1, hTr1, hQ1⟩ :=
            ih (scheduleDeps (writeValue st s (resolveW w (st.sigs.getD s sigDefault).value)) s)
              .flush
          refine ⟨((ff_writeValue st s _).trans (ff_scheduleDeps _ s)).trans hFF1,
            fun h => hTr1 h, ?_⟩
          exact quiet_chain (QuietStep.of_eq rfl rfl) hQ1
      | runList l del =>
        cases l with
        | nil => exact ⟨FF.refl st, fun _ => rfl, trivial⟩
        | cons fx rest =>
            obtain ⟨hFF1, hTr1, _⟩ := ih st (.update fx)
            simp only [interp]
            cases he : (interp n st (.update fx)).err with
            | some e =>
                simp only [he]
                exact ⟨hFF1, fun h => absurd h (by simp), trivial⟩
            | none =>
                simp only [he]
                cases del with
                | true =>
                    obtain ⟨hFF2, hTr2, _⟩ :=
                      ih (erasePending (interp n st (.update fx)).st fx) (.runList rest true)
                    simp only [if_pos rfl]
                    exact ⟨(hFF1.trans (ff_erasePending _ fx)).trans hFF2,
                      fun h => (hTr2 h).trans (hTr1 he), trivial⟩
                | false =>
                    obtain ⟨hFF2, hTr2, _⟩ :=
                      ih (interp n st (.update fx)).st (.runList rest false)
                    simp only [Bool.false_eq_true, if_false]
                    exact ⟨hFF1.trans hFF2, fun h => (hTr2 h).trans (hTr1 he), trivial⟩
      | createEffect m b =>
        obtain ⟨hFF1, hTr1, _⟩ := ih (pushFx st m b) (.update st.fxs.length)
        simp only [interp]
        exact ⟨(ff_pushFx st m b).trans hFF1, fun h => hTr1 h, trivial⟩
      | batch b =>
        obtain ⟨hFF1, hTr1, _⟩ := ih (batchEnter st) (.body b)
        obtain ⟨hr1, hb1, hcc1⟩ := hFF1
        simp only [interp]
        by_cases hB : (batchExit (interp n (batchEnter st) (.body b)).st).batchLevel = 0
        · rw [if_pos hB]
          obtain ⟨hFF2, hTr2, _⟩ :=
            ih (batchExit (interp n (batchEnter st) (.body b)).st) .flush
          obtain ⟨hr2, hb2, hcc2⟩ := hFF2
          refine ⟨⟨hr2.trans hr1, ?_, ?_⟩, ?_, trivial⟩
          · show (interp n (batchExit _) .flush).st.batchLevel = st.batchLevel
            rw [hb2]
            show (interp n (batchEnter st) (.body b)).st.batchLevel - 1 = st.batchLevel
            rw [hb1]
            rfl
          · exact ffc_comp (ffc_comp (ffc_comp (ffc_batchEnter st) hcc1) (ffc_batchExit _)) hcc2
          · intro h
            cases hfe : (interp n (batchExit (interp n (batchEnter st) (.body b)).st) .flush).err with
            | some e => rw [hfe] at h; exact absurd h (by simp)
            | none =>
                rw [hfe] at h
                exact (hTr2 hfe).trans (hTr1 h)
        · rw [if_neg hB]
          refine ⟨⟨hr1, ?_, ffc_comp (ffc_comp (ffc_batchEnter st) hcc1) (ffc_batchExit _)⟩,
            fun h => hTr1 h, trivial⟩
          show (interp n (batchEnter st) (.body b)).st.batchLevel - 1 = st.batchLevel
          rw [hb1]
          rfl

/-! Preservation of the store invariant by the pure steps. -/

theorem getD_oob {α : Type} {l : List α} {i : Nat} (d : α) (h : l.length ≤ i) :
    l.getD i d = d := by
  simp [List.getD_eq_getElem?_getD, List.getElem?_eq_none h]

theorem StOk_congr {st st' : St} (h : StOk st) (h1 : st'.sigs = st.sigs)
    (h2 : st'.fxs = st.fxs) (h3 : st'.running = st.running)
    (h4 : st'.pending = st.pending) : StOk st' := by
  obtain ⟨hD, hF, hC, hR, hP⟩ := h
  refine ⟨?_, ?_, ?_, ?_, ?_⟩
  · intro i hi
    rw [h1] at hi ⊢
    rw [h2]
    exact hD i hi
  · intro j hj
    rw [h2] at hj ⊢
    rw [h1]
    exact hF j hj
  · intro i hi j hj
    rw [h1] at hi ⊢
    rw [h2] at hj ⊢
    exact hC i hi j hj
  · intro j hj
    rw [h3] at hj
    rw [h2]
    exact hR j hj
  · intro j hj
    rw [h4] at hj
    rw [h2]
    exact hP j hj

/-- Updating only the ghost `lastReads` of one effect — to a duplicate-free
superset — preserves the invariant, provided the unlinker set is contained
in the new ghost. -/
theorem ghost_update_stok (st : St) (fx : Nat) (lr : List Nat) (hOk : StOk st)
    (hfx : fx < st.fxs.length) (hnd : lr.Nodup)
    (hsub : ∀ x ∈ (st.fxs.getD fx fxDefault).unlinks, x ∈ lr) :
    StOk {st with fxs := st.fxs.set fx (⟨(st.fxs.getD fx fxDefault).isMemo, (st.fxs.getD fx fxDefault).body, (st.fxs.getD fx fxDefault).unlinks, (st.fxs.getD fx fxDefault).userCleanup, lr⟩ : FxC)} := by
  obtain ⟨hD, hF, hC, hR, hP⟩ := hOk
  refine ⟨?_, ?_, ?_, ?_, ?_⟩
  · intro i hi
    simp only [List.length_set] at hi ⊢
    exact hD i hi
  · intro j hj
    simp only [List.length_set] at hj ⊢
    by_cases hjf : j = fx
    · subst hjf
      rw [getD_set_self _ _ _ hfx]
      exact ⟨(hF j hj).1, hnd, (hF j hj).2.2.1, hsub⟩
    · rw [getD_set_ne _ _ _ (fun h => hjf h.symm)]
      exact hF j hj
  · intro i hi j hj
    simp only [List.length_set] at hj
    by_cases hjf : j = fx
    · subst hjf
      rw [getD_set_self _ _ _ hfx]
      exact hC i hi j hj
    · rw [getD_set_ne _ _ _ (fun h => hjf h.symm)]
      exact hC i hi j hj
  · intro j hj
    simp only [List.length_set]
    exact hR j hj
  · intro j hj
    simp only [List.length_set]
    exact hP j hj

/-- Installing a fresh edge (the read effect was not yet an observer of the
signal) preserves the invariant: the signal gains the observer, the effect
gains the unlinker, and the ghost is any duplicate-free superset containing
the signal. -/
theorem edge_install_stok (st : St) (s fx : Nat) (lr : List Nat) (hOk : StOk st)
    (hs : s < st.sigs.length) (hfx : fx < st.fxs.length)
    (hmem : fx ∉ (st.sigs.getD s sigDefault).deps)
    (hsin : s ∈ lr) (hnd : lr.Nodup)
    (hsub : ∀ x ∈ (st.fxs.getD fx fxDefault).lastReads, x ∈ lr) :
    StOk {st with
      sigs := st.sigs.set s (⟨(st.sigs.getD s sigDefault).value, (st.sigs.getD s sigDefault).eq, (st.sigs.getD s sigDefault).deps ++ [fx]⟩ : SigC),
      fxs := st.fxs.set fx (⟨(st.fxs.getD fx fxDefault).isMemo, (st.fxs.getD fx fxDefault).body, (st.fxs.getD fx fxDefault).unlinks ++ [s], (st.fxs.getD fx fxDefault).userCleanup, lr⟩ : FxC)} := by
  obtain ⟨hD, hF, hC, hR, hP⟩ := hOk
  have hsu : s ∉ (st.fxs.getD fx fxDefault).unlinks := by
    intro hin
    exact hmem ((hC s hs fx hfx).2 hin)
  refine ⟨?_, ?_, ?_, ?_, ?_⟩
  · intro i hi
    simp only [List.length_set] at hi ⊢
    by_cases his : i = s
    · subst his
      rw [getD_set_self _ _ _ hs]
      refine ⟨nodup_append_singleton (hD i hi).1 hmem, ?_⟩
      intro j hj
      rcases List.mem_append.1 hj with hj | hj
      · exact (hD i hi).2 j hj
      · simp at hj
        subst hj
        exact hfx
    · rw [getD_set_ne _ _ _ (fun h => his h.symm)]
      exact hD i hi
  · intro j hj
    simp only [List.length_set] at hj ⊢
    by_cases hjf : j = fx
    · subst hjf
      rw [getD_set_self _ _ _ hfx]
      refine ⟨nodup_append_singleton (hF j hj).1 hsu, hnd, ?_, ?_⟩
      · intro x hx
        rcases List.mem_append.1 hx with hx | hx
        · exact (hF j hj).2.2.1 x hx
        · simp at hx
          subst hx
          exact hs
      · intro x hx
        rcases List.mem_append.1 hx with hx | hx
        · exact hsub x ((hF j hj).2.2.2 x hx)
        · simp at hx
          subst hx
          exact hsin
    · rw [getD_set_ne _ _ _ (fun h => hjf h.symm)]
      exact hF j hj
  · intro i hi j hj
    simp only [List.length_set] at hi hj
    by_cases his : i = s
    · subst his
      rw [getD_set_self _ _ _ hs]
      by_cases hjf : j = fx
      · subst hjf
        rw [getD_set_self _ _ _ hfx]
        constructor
        · intro _
          exact List.mem_append_right _ (by simp)
        · intro _
          exact List.mem_append_right _ (by simp)
      · rw [getD_set_ne _ _ _ (fun h => hjf h.symm)]
        constructor
        · intro hin
          rcases List.mem_append.1 hin with hin | hin
          · exact (hC i hi j hj).1 hin
          · simp at hin
            exact absurd hin hjf
        · intro hin
          exact List.mem_append_left _ ((hC i hi j hj).2 hin)
    · rw [getD_set_ne _ _ _ (fun h => his h.symm)]
      by_cases hjf : j = fx
      · subst hjf
        rw [getD_set_self _ _ _ hfx]
        constructor
        · intro hin
          exact List.mem_append_left _ ((hC i hi j hj).1 hin)
        · intro hin
          rcases List.mem_append.1 hin with hin | hin
          · exact (hC i hi j hj).2 hin
          · simp at hin
            exact absurd hin his
      · rw [getD_set_ne _ _ _ (fun h => hjf h.symm)]
        exact hC i hi j hj
  · intro j hj
    simp only [List.length_set]
    exact hR j hj
  · intro j hj
    simp only [List.length_set]
    exact hP j hj

/-- The full specification of a tracked read: the invariant is preserved,
effects other than the current observer are untouched, and for the current
observer the unlinker set and the ghost read-set stay equal when they were
equal before. -/
theorem trackRead_spec (st : St) (s fx : Nat) (hOk : StOk st)
    (hs : s < st.sigs.length) (hfx : fx < st.fxs.length) :
    StOk (trackRead st s fx) ∧
    (∀ g, g ≠ fx → pairOf (trackRead st s fx) g = pairOf st g) ∧
    ((pairOf st fx).1 = (pairOf st fx).2 →
      (pairOf (trackRead st s fx) fx).1 = (pairOf (trackRead st s fx) fx).2) := by
  have hOk' := hOk
  obtain ⟨hD, hF, hC, hR, hP⟩ := hOk'
  have hFfx := hF fx hfx
  have hcoh := hC s hs fx hfx
  unfold trackRead
  dsimp only
  by_cases hlr : s ∈ (st.fxs.getD fx fxDefault).lastReads
  · rw [if_pos hlr]
    by_cases hmem : fx ∈ (st.sigs.getD s sigDefault).deps
    · rw [if_pos hmem, set_getD_self]
      exact ⟨hOk, fun g _ => rfl, fun h => h⟩
    · rw [if_neg hmem]
      refine ⟨edge_install_stok st s fx (st.fxs.getD fx fxDefault).lastReads hOk hs hfx hmem
          hlr hFfx.2.1 (fun x hx => hx), ?_, ?_⟩
      · intro g hg
        unfold pairOf
        dsimp only
        rw [getD_set_ne _ _ _ (Ne.symm hg)]
      · intro hpair
        unfold pairOf at hpair
        dsimp only at hpair
        exfalso
        have hsu : s ∉ (st.fxs.getD fx fxDefault).unlinks := fun hin => hmem (hcoh.2 hin)
        rw [hpair] at hsu
        exact hsu hlr
  · rw [if_neg hlr]
    by_cases hmem : fx ∈ (st.sigs.getD s sigDefault).deps
    · rw [if_pos hmem]
      have hst : StOk {st with fxs := st.fxs.set fx (⟨(st.fxs.getD fx fxDefault).isMemo, (st.fxs.getD fx fxDefault).body, (st.fxs.getD fx fxDefault).unlinks, (st.fxs.getD fx fxDefault).userCleanup, (st.fxs.getD fx fxDefault).lastReads ++ [s]⟩ : FxC)} :=
        ghost_update_stok st fx ((st.fxs.getD fx fxDefault).lastReads ++ [s]) hOk hfx
          (nodup_append_singleton hFfx.2.1 hlr)
          (fun x hx => List.mem_append_left _ (hFfx.2.2.2 x hx))
      refine ⟨hst, ?_, ?_⟩
      · intro g hg
        unfold pairOf
        dsimp only
        rw [getD_set_ne _ _ _ (Ne.symm hg)]
      · intro hpair
        unfold pairOf at hpair
        dsimp only at hpair
        exfalso
        have hsin : s ∈ (st.fxs.getD fx fxDefault).unlinks := hcoh.1 hmem
        rw [hpair] at hsin
        exact hlr hsin
    · rw [if_neg hmem]
      refine ⟨edge_install_stok st s fx ((st.fxs.getD fx fxDefault).lastReads ++ [s]) hOk hs
          hfx hmem (List.mem_append_right _ (by simp))
          (nodup_append_singleton hFfx.2.1 hlr) (fun x hx => List.mem_append_left _ hx), ?_, ?_⟩
      · intro g hg
        unfold pairOf
        dsimp only
        rw [getD_set_ne _ _ _ (Ne.symm hg)]
      · intro hpair
        unfold pairOf at hpair ⊢
        dsimp only at hpair ⊢
        rw [getD_set_self _ _ _ hfx]
        dsimp only
        rw [hpair]

/-- The state effect of a signal read: the invariant is preserved; effects
that are not the current observer keep their unlinker set and ghost; the
current observer's unlinker set and ghost stay equal when they were. -/
theorem readSt_spec (st : St) (s : Nat) (hOk : StOk st) :
    StOk (readSt st s) ∧
    (∀ g, st.running.head? ≠ some g → pairOf (readSt st s) g = pairOf st g) ∧
    (st.isTracking = false → readSt st s = st) ∧
    (∀ g, st.running.head? = some g → (pairOf st g).1 = (pairOf st g).2 →
      (pairOf (readSt st s) g).1 = (pairOf (readSt st s) g).2) := by
  unfold readSt
  by_cases hK : st.isTracking
  · rw [if_pos hK]
    by_cases hs : s < st.sigs.length
    · rw [if_pos hs]
      cases hh : st.running.head? with
      | none => exact ⟨hOk, fun g _ => rfl, fun hKf => absurd hK (by simp [hKf]),
          fun g hg => by cases hg⟩
      | some fx =>
          have hfx : fx < st.fxs.length := hOk.2.2.2.1 fx (List.mem_of_mem_head? (by rw [hh]; rfl))
          obtain ⟨h1, h2, h3⟩ := trackRead_spec st s fx hOk hs hfx
          refine ⟨h1, ?_, fun hKf => absurd hK (by simp [hKf]), ?_⟩
          · intro g hg
            refine h2 g ?_
            rintro rfl
            exact hg rfl
          · intro g hg
            cases hg
            exact h3
    · rw [if_neg hs]
      exact ⟨hOk, fun g _ => rfl, fun hKf => absurd hK (by simp [hKf]), fun g _ h => h⟩
  · rw [if_neg hK]
    exact ⟨hOk, fun g _ => rfl, fun _ => rfl, fun g _ h => h⟩

/-- The full specification of `cleanup`: the invariant is preserved, other
effects' unlinker sets and ghosts are untouched, the cleaned effect keeps its
ghost but loses all unlinkers, its stored user cleanup is NOT cleared, and
the effect is removed from every observer set. -/
theorem cleanup_spec (st : St) (fx : Nat) (hOk : StOk st) :
    StOk (cleanup st fx) ∧
    (∀ g, g ≠ fx → pairOf (cleanup st fx) g = pairOf st g) ∧
    pairOf (cleanup st fx) fx = ([], (st.fxs.getD fx fxDefault).lastReads) ∧
    ((cleanup st fx).fxs.getD fx fxDefault).userCleanup
      = (st.fxs.getD fx fxDefault).userCleanup ∧
    (∀ i, i < st.sigs.length → fx ∉ ((cleanup st fx).sigs.getD i sigDefault).deps) := by
  obtain ⟨hD, hF, hC, hR, hP⟩ := hOk
  have hUnl : (st.fxs.getD fx fxDefault).unlinks.Nodup ∧
      (∀ x ∈ (st.fxs.getD fx fxDefault).unlinks, x < st.sigs.length) := by
    by_cases hfx : fx < st.fxs.length
    · exact ⟨(hF fx hfx).1, (hF fx hfx).2.2.1⟩
    · rw [getD_oob _ (le_of_not_lt hfx)]
      exact ⟨List.nodup_nil, by simp [fxDefault]⟩
  have hrm : ∀ i, i < st.sigs.length → fx ∉ ((cleanup st fx).sigs.getD i sigDefault).deps := by
    intro i hi
    show fx ∉ ((unlinkAll st.sigs fx (st.fxs.getD fx fxDefault).unlinks).getD i sigDefault).deps
    by_cases hiu : i ∈ (st.fxs.getD fx fxDefault).unlinks
    · rw [unlinkAll_getD_mem fx _ _ _ hUnl.1 hiu]
      exact (hD i hi).1.not_mem_erase
    · rw [unlinkAll_getD_not_mem fx _ _ _ hiu]
      intro hin
      by_cases hfx : fx < st.fxs.length
      · exact hiu ((hC i hi fx hfx).1 hin)
      · exact absurd ((hD i hi).2 fx hin) hfx
  have hud : ∀ g, g ≠ fx →
      (cleanup st fx).fxs.getD g fxDefault = st.fxs.getD g fxDefault := by
    intro g hg
    show (st.fxs.set fx _).getD g fxDefault = _
    rw [getD_set_ne _ _ _ (fun h => hg h.symm)]
  have hself : (cleanup st fx).fxs.getD fx fxDefault =
      ⟨(st.fxs.getD fx fxDefault).isMemo, (st.fxs.getD fx fxDefault).body, [],
        (st.fxs.getD fx fxDefault).userCleanup, (st.fxs.getD fx fxDefault).lastReads⟩ := by
    show (st.fxs.set fx _).getD fx fxDefault = _
    by_cases hfx : fx < st.fxs.length
    · rw [getD_set_self _ _ _ hfx]
    · rw [getD_set_oob _ _ (le_of_not_lt hfx), getD_oob _ (le_of_not_lt hfx)]
      rfl
  refine ⟨⟨?_, ?_, ?_, ?_, ?_⟩, ?_, ?_, ?_, hrm⟩
  · intro i hi
    have hlen : (cleanup st fx).sigs.length = st.sigs.length := by
      simp [cleanup, unlinkAll_length]
    rw [hlen] at hi
    have hflen : (cleanup st fx).fxs.length = st.fxs.length := by
      simp [cleanup, List.length_set]
    rw [hflen]
    show ((unlinkAll st.sigs fx (st.fxs.getD fx fxDefault).unlinks).getD i sigDefault).deps.Nodup
      ∧ ∀ j ∈ ((unlinkAll st.sigs fx (st.fxs.getD fx fxDefault).unlinks).getD i sigDefault).deps,
        j < st.fxs.length
    by_cases hiu : i ∈ (st.fxs.getD fx fxDefault).unlinks
    · rw [unlinkAll_getD_mem fx _ _ _ hUnl.1 hiu]
      exact ⟨(hD i hi).1.erase fx, fun j hj => (hD i hi).2 j (List.mem_of_mem_erase hj)⟩
    · rw [unlinkAll_getD_not_mem fx _ _ _ hiu]
      exact hD i hi
  · intro j hj
    have hflen : (cleanup st fx).fxs.length = st.fxs.length := by
      simp [cleanup, List.length_set]
    rw [hflen] at hj
    have hlen : (cleanup st fx).sigs.length = st.sigs.length := by
      simp [cleanup, unlinkAll_length]
    rw [hlen]
    by_cases hjf : j = fx
    · subst hjf
      rw [hself]
      refine ⟨List.nodup_nil, ?_, by simp, by simp⟩
      by_cases hfx : j < st.fxs.length
      · exact (hF j hfx).2.1
      · rw [getD_oob _ (le_of_not_lt hfx)]
        exact List.nodup_nil
    · rw [hud j hjf]
      exact hF j hj
  · intro i hi j hj
    have hlen : (cleanup st fx).sigs.length = st.sigs.length := by
      simp [cleanup, unlinkAll_length]
    have hflen : (cleanup st fx).fxs.length = st.fxs.length := by
      simp [cleanup, List.length_set]
    rw [hlen] at hi
    rw [hflen] at hj
    by_cases hjf : j = fx
    · subst hjf
      rw [hself]
      constructor
      · intro hin
        exact absurd hin (hrm i hi)
      · intro hin
        simp at hin
    · rw [hud j hjf]
      show j ∈ ((unlinkAll st.sigs fx (st.fxs.getD fx fxDefault).unlinks).getD i sigDefault).deps
        ↔ _
      by_cases hiu : i ∈ (st.fxs.getD fx fxDefault).unlinks
      · rw [unlinkAll_getD_mem fx _ _ _ hUnl.1 hiu]
        dsimp only
        rw [List.mem_erase_of_ne hjf]
        exact hC i hi j hj
      · rw [unlinkAll_getD_not_mem fx _ _ _ hiu]
        exact hC i hi j hj
  · intro j hj
    have hflen : (cleanup st fx).fxs.length = st.fxs.length := by
      simp [cleanup, List.length_set]
    rw [hflen]
    exact hR j hj
  · intro j hj
    have hflen : (cleanup st fx).fxs.length = st.fxs.length := by
      simp [cleanup, List.length_set]
    rw [hflen]
    exact hP j hj
  · intro g hg
    unfold pairOf
    rw [hud g hg]
  · unfold pairOf
    rw [hself]
  · rw [hself]

/-- The unlinker/ghost pair only depends on the effect records. -/
theorem pairOf_congr {st st' : St} (h : st'.fxs = st.fxs) (g : Nat) :
    pairOf st' g = pairOf st g := by
  unfold pairOf
  rw [h]

/-- An element of a list followed by one more element. -/
theorem getD_append_lt {α : Type} (l : List α) (a d : α) {i : Nat} (h : i < l.length) :
    (l ++ [a]).getD i d = l.getD i d := by
  simp [List.getD_eq_getElem?_getD, List.getElem?_append_left h]

/-- Popping the running stack preserves the invariant. -/
theorem stok_tail (st : St) (hOk : StOk st) :
    StOk {st with running := st.running.tail} := by
  obtain ⟨hD, hF, hC, hR, hP⟩ := hOk
  exact ⟨hD, hF, hC, fun j hj => hR j (List.mem_of_mem_tail hj), hP⟩

/-- Clearing the pending set preserves the invariant. -/
theorem stok_flushClear (st : St) (hOk : StOk st) : StOk (flushClear st) := by
  obtain ⟨hD, hF, hC, hR, hP⟩ := hOk
  exact ⟨hD, hF, hC, hR, fun j hj => absurd hj (List.not_mem_nil j)⟩

/-- Erasing a pending effect preserves the invariant. -/
theorem stok_erasePending (st : St) (fx : Nat) (hOk : StOk st) :
    StOk (erasePending st fx) := by
  obtain ⟨hD, hF, hC, hR, hP⟩ := hOk
  exact ⟨hD, hF, hC, hR, fun j hj => hP j (List.mem_of_mem_erase hj)⟩

/-- Overwriting a signal value preserves the invariant: the observer set of
the written cell is untouched. -/
theorem stok_writeValue (st : St) (s : Nat) (nv : SVal) (hOk : StOk st) :
    StOk (writeValue st s nv) := by
  obtain ⟨hD, hF, hC, hR, hP⟩ := hOk
  have hd : ∀ i, ((writeValue st s nv).sigs.getD i sigDefault).deps
      = (st.sigs.getD i sigDefault).deps := by
    intro i
    show ((st.sigs.set s _).getD i sigDefault).deps = _
    by_cases his : i = s
    · subst his
      by_cases hs : i < st.sigs.length
      · rw [getD_set_self _ _ _ hs]
      · rw [getD_set_oob _ _ (le_of_not_lt hs)]
    · rw [getD_set_ne _ _ _ (fun h => his h.symm)]
  have hlen : (writeValue st s nv).sigs.length = st.sigs.length := by
    simp [writeValue, List.length_set]
  refine ⟨?_, ?_, ?_, hR, hP⟩
  · intro i hi
    rw [hlen] at hi
    rw [hd]
    exact hD i hi
  · intro j hj
    rw [hlen]
    exact hF j hj
  · intro i hi j hj
    rw [hlen] at hi
    rw [hd]
    exact hC i hi j hj

/-- The scheduling loop of a write preserves the invariant: every inserted
observer is an allocated effect. -/
theorem stok_scheduleDeps (st : St) (s : Nat) (hOk : StOk st) :
    StOk (scheduleDeps st s) := by
  obtain ⟨hD, hF, hC, hR, hP⟩ := hOk
  refine ⟨hD, hF, hC, hR, ?_⟩
  intro j hj
  show j < st.fxs.length
  rcases mem_foldl_pushPending _ _ _ hj with h | h
  · exact hP j h
  · by_cases hs : s < st.sigs.length
    · exact (hD s hs).2 j h
    · rw [getD_oob _ (le_of_not_lt hs)] at h
      exact absurd h (List.not_mem_nil j)

/-- Allocating a fresh effect record preserves the invariant. -/
theorem stok_pushFx (st : St) (m : Bool) (b : Body) (hOk : StOk st) :
    StOk (pushFx st m b) := by
  obtain ⟨hD, hF, hC, hR, hP⟩ := hOk
  have hnew : (st.fxs ++ [(⟨m, b, [], none, []⟩ : FxC)]).getD st.fxs.length fxDefault
      = ⟨m, b, [], none, []⟩ := by
    simp [List.getD_eq_getElem?_getD, List.getElem?_append_right (le_refl _)]
  refine ⟨?_, ?_, ?_, ?_, ?_⟩
  · intro i hi
    simp only [pushFx, List.length_append, List.length_singleton] at hi ⊢
    exact ⟨(hD i hi).1, fun j hj => Nat.lt_succ_of_lt ((hD i hi).2 j hj)⟩
  · intro j hj
    simp only [pushFx, List.length_append, List.length_singleton] at hj ⊢
    by_cases hjl : j < st.fxs.length
    · rw [getD_append_lt _ _ _ hjl]
      exact hF j hjl
    · have hje : j = st.fxs.length := Nat.le_antisymm (Nat.lt_succ_iff.1 hj) (le_of_not_lt hjl)
      subst hje
      rw [hnew]
      exact ⟨List.nodup_nil, List.nodup_nil, by simp, by simp⟩
  · intro i hi j hj
    simp only [pushFx, List.length_append, List.length_singleton] at hi hj ⊢
    by_cases hjl : j < st.fxs.length
    · rw [getD_append_lt _ _ _ hjl]
      exact hC i hi j hjl
    · have hje : j = st.fxs.length := Nat.le_antisymm (Nat.lt_succ_iff.1 hj) (le_of_not_lt hjl)
      subst hje
      rw [hnew]
      constructor
      · intro hin
        exact absurd ((hD i hi).2 _ hin) (lt_irrefl _)
      · intro hin
        exact absurd hin (List.not_mem_nil i)
  · intro j hj
    simp only [pushFx, List.length_append, List.length_singleton] at hj ⊢
    exact Nat.lt_succ_of_lt (hR j hj)
  · intro j hj
    simp only [pushFx, List.length_append, List.length_singleton] at hj ⊢
    exact Nat.lt_succ_of_lt (hP j hj)

/-- Entering `update()` preserves the invariant, given the preceding cleanup
emptied the unlinker set (the fresh ghost starts empty, matching it). -/
theorem stok_updEnter (st : St) (fx : Nat) (hOk : StOk st) (hfx : fx < st.fxs.length)
    (hu : (st.fxs.getD fx fxDefault).unlinks = []) :
    StOk (updEnter st fx) := by
  obtain ⟨hD, hF, hC, hR, hP⟩ := hOk
  have hgd : ∀ j, j ≠ fx →
      (updEnter st fx).fxs.getD j fxDefault = st.fxs.getD j fxDefault := by
    intro j hj
    simp only [updEnter]
    rw [getD_set_ne _ _ _ (fun h => hj h.symm)]
  have hgs : (updEnter st fx).fxs.getD fx fxDefault
      = {st.fxs.getD fx fxDefault with lastReads := []} := by
    simp only [updEnter]
    rw [getD_set_self _ _ _ hfx]
  refine ⟨?_, ?_, ?_, ?_, ?_⟩
  · intro i hi
    simp only [updEnter, List.length_set] at hi ⊢
    exact hD i hi
  · intro j hj
    simp only [updEnter, List.length_set] at hj
    by_cases hjf : j = fx
    · subst hjf
      rw [hgs]
      simp only [updEnter, List.length_set]
      refine ⟨(hF j hj).1, List.nodup_nil, (hF j hj).2.2.1, ?_⟩
      intro x hx
      rw [hu] at hx
      exact absurd hx (List.not_mem_nil x)
    · rw [hgd j hjf]
      simp only [updEnter, List.length_set]
      exact hF j hj
  · intro i hi j hj
    simp only [updEnter, List.length_set] at hi hj
    by_cases hjf : j = fx
    · subst hjf
      rw [hgs]
      exact hC i hi j hj
    · rw [hgd j hjf]
      exact hC i hi j hj
  · intro j hj
    simp only [updEnter, List.length_set] at hj ⊢
    rcases List.mem_cons.1 hj with h | h
    · exact h ▸ hfx
    · exact hR j h
  · intro j hj
    simp only [updEnter, List.length_set] at hj ⊢
    exact hP j hj

/-- Normal exit of `update()` stores only the user cleanup and pops the
stack: each effect keeps its unlinker set and ghost. -/
theorem updExitOk_getD (st : St) (fx : Nat) (cln : Option Cleanup) (g : Nat) :
    ((updExitOk st fx cln).fxs.getD g fxDefault).unlinks
      = (st.fxs.getD g fxDefault).unlinks ∧
    ((updExitOk st fx cln).fxs.getD g fxDefault).lastReads
      = (st.fxs.getD g fxDefault).lastReads ∧
    ((updExitOk st fx cln).fxs.getD g fxDefault).isMemo
      = (st.fxs.getD g fxDefault).isMemo := by
  simp only [updExitOk]
  by_cases hgf : g = fx
  · subst hgf
    by_cases hg : g < st.fxs.length
    · rw [getD_set_self _ _ _ hg]
      exact ⟨rfl, rfl, rfl⟩
    · rw [getD_set_oob _ _ (le_of_not_lt hg)]
      exact ⟨rfl, rfl, rfl⟩
  · rw [getD_set_ne _ _ _ (fun h => hgf h.symm)]
    exact ⟨rfl, rfl, rfl⟩

/-- Normal exit of `update()` preserves the invariant, and never changes any
unlinker/ghost pair. -/
theorem stok_updExitOk (st : St) (fx : Nat) (cln : Option Cleanup) (hOk : StOk st) :
    StOk (updExitOk st fx cln) ∧
    ∀ g, pairOf (updExitOk st fx cln) g = pairOf st g := by
  obtain ⟨hD, hF, hC, hR, hP⟩ := hOk
  have hpg : ∀ g, pairOf (updExitOk st fx cln) g = pairOf st g := by
    intro g
    unfold pairOf
    rw [(updExitOk_getD st fx cln g).1, (updExitOk_getD st fx cln g).2.1]
  refine ⟨⟨?_, ?_, ?_, ?_, ?_⟩, hpg⟩
  · intro i hi
    refine ⟨(hD i hi).1, ?_⟩
    intro j hj
    simp only [updExitOk, List.length_set]
    exact (hD i hi).2 j hj
  · intro j hj
    simp only [updExitOk, List.length_set] at hj
    rw [(updExitOk_getD st fx cln j).1, (updExitOk_getD st fx cln j).2.1]
    exact hF j hj
  · intro i hi j hj
    simp only [updExitOk, List.length_set] at hj
    rw [(updExitOk_getD st fx cln j).1]
    exact hC i hi j hj
  · intro j hj
    simp only [updExitOk, List.length_set]
    exact hR j (List.mem_of_mem_tail hj)
  · intro j hj
    simp only [updExitOk, List.length_set]
    exact hP j hj

/-- Exceptional exit of `update()` preserves the invariant. -/
theorem stok_updExitErr (st : St) (fx : Nat) (hOk : StOk st) :
    StOk (updExitErr st fx) :=
  stok_tail (cleanup st fx) (cleanup_spec st fx hOk).1

/-- Entering `update()` leaves the records of the other effects alone. -/
theorem pairOf_updEnter_ne (st : St) (fx g : Nat) (hg : g ≠ fx) :
    pairOf (updEnter st fx) g = pairOf st g := by
  unfold pairOf updEnter
  dsimp only
  rw [getD_set_ne _ _ _ (fun h => hg h.symm)]

/-- Entering `update()` restarts the ghost of the entered effect. -/
theorem pairOf_updEnter_self (st : St) (fx : Nat) (hfx : fx < st.fxs.length) :
    pairOf (updEnter st fx) fx = ((st.fxs.getD fx fxDefault).unlinks, []) := by
  unfold pairOf updEnter
  dsimp only
  rw [getD_set_self _ _ _ hfx]

/-- Cleaning up a never-allocated effect id is a no-op. -/
theorem cleanup_oob (st : St) (fx : Nat) (h : st.fxs.length ≤ fx) :
    cleanup st fx = st := by
  unfold cleanup
  dsimp only
  rw [getD_oob _ h, getD_set_oob _ _ h]
  show {st with sigs := unlinkAll st.sigs fx fxDefault.unlinks, log := st.log ++ cleanupEvents fxDefault.userCleanup} = st
  simp [fxDefault, unlinkAll, cleanupEvents]

/-- Entering `update()` on a never-allocated effect id only pushes the stack
and logs the run. -/
theorem updEnter_oob (st : St) (fx : Nat) (h : st.fxs.length ≤ fx) :
    updEnter st fx = {st with running := fx :: st.running, log := st.log ++ [.run fx]} := by
  unfold updEnter
  rw [getD_set_oob _ _ h]

/-- Exiting `update()` on a never-allocated effect id only pops the stack. -/
theorem updExitOk_oob (st : St) (fx : Nat) (cln : Option Cleanup)
    (h : st.fxs.length ≤ fx) :
    updExitOk st fx cln = {st with running := st.running.tail} := by
  unfold updExitOk
  rw [getD_set_oob _ _ h]

/-- When an operation changes no unlinker/ghost pair of a running effect,
both tracking conclusions of the invariant theorem follow. -/
theorem bc_of_pres {st res : St} (op : Op)
    (hpres : ∀ g ∈ st.running, pairOf res g = pairOf st g) :
    (∀ g ∈ st.running, (headTouch op = true ∧ st.running.head? = some g) ∨
      pairOf res g = pairOf st g) ∧
    (∀ g, st.running.head? = some g →
      (pairOf st g).1 = (pairOf st g).2 →
      (pairOf res g).1 = (pairOf res g).2) := by
  refine ⟨fun g hg => Or.inr (hpres g hg), ?_⟩
  intro g hh hsy
  rw [hpres g (List.mem_of_mem_head? hh)]
  exact hsy

/-- `update()` on a never-allocated effect id only logs a run of the default
(empty) body: the invariant is preserved, no unlinker/ghost pair changes, and
the pair of the given id is trivially in sync. -/
theorem stok_update_oob (m : Nat) (st : St) (fx : Nat) (hOk : StOk st)
    (hoob : st.fxs.length ≤ fx) (hmem : fx ∉ st.running) :
    StOk (interp (m + 1) st (.update fx)).st ∧
    (∀ g, pairOf (interp (m + 1) st (.update fx)).st g = pairOf st g) ∧
    (pairOf (interp (m + 1) st (.update fx)).st fx).1
      = (pairOf (interp (m + 1) st (.update fx)).st fx).2 := by
  have hsync : (pairOf st fx).1 = (pairOf st fx).2 := by
    unfold pairOf
    rw [getD_oob _ hoob]
    rfl
  have hfxsE : (updEnter st fx).fxs = st.fxs := getD_set_oob _ _ hoob
  have hoob2 : (updEnter st fx).fxs.length ≤ fx := by rw [hfxsE]; exact hoob
  have hcE : cleanup (updEnter st fx) fx = updEnter st fx := cleanup_oob _ fx hoob2
  simp only [interp]
  rw [cleanup_oob st fx hoob]
  rw [if_neg hmem]
  rw [getD_oob _ hoob]
  have hfb : fxDefault.body = Body.ret SVal.undef none := rfl
  rw [hfb]
  cases m with
  | zero =>
      simp only [interp]
      have h1 : (updExitErr (updEnter st fx) fx).sigs = st.sigs :=
        (congrArg St.sigs hcE).trans (rfl : (updEnter st fx).sigs = st.sigs)
      have h2 : (updExitErr (updEnter st fx) fx).fxs = st.fxs :=
        (congrArg St.fxs hcE).trans hfxsE
      have h3 : (updExitErr (updEnter st fx) fx).running = st.running :=
        (congrArg List.tail (congrArg St.running hcE)).trans
          (rfl : (updEnter st fx).running.tail = st.running)
      have h4 : (updExitErr (updEnter st fx) fx).pending = st.pending :=
        (congrArg St.pending hcE).trans (rfl : (updEnter st fx).pending = st.pending)
      refine ⟨StOk_congr hOk h1 h2 h3 h4, fun g => pairOf_congr h2 g, ?_⟩
      rw [pairOf_congr h2 fx]
      exact hsync
  | succ m2 =>
      simp only [interp]
      have hfxs2 : (updExitOk (updEnter st fx) fx none).fxs = st.fxs :=
        (getD_set_oob _ _ hoob2).trans hfxsE
      refine ⟨StOk_congr hOk rfl hfxs2 rfl rfl, fun g => pairOf_congr hfxs2 g, ?_⟩
      rw [pairOf_congr hfxs2 fx]
      exact hsync

/-- Preservation of the store invariant by every interpreter operation;
additionally, on success: an operation only changes the unlinker/ghost pairs
of effects on the running stack when it is a body (or batched body) run
touching the stack top; the stack top's pair stays in sync (unlinkers equal
to the tracked reads of the current run) whenever it was; and a completed
`update(fx)` leaves `fx`'s pair in sync. -/
theorem interp_stok (n : Nat) : ∀ (st : St) (op : Op), StOk st →
    StOk (interp n st op).st ∧
    ((interp n st op).err = none →
      (∀ g ∈ st.running, (headTouch op = true ∧ st.running.head? = some g) ∨
        pairOf (interp n st op).st g = pairOf st g) ∧
      (∀ g, st.running.head? = some g →
        (pairOf st g).1 = (pairOf st g).2 →
        (pairOf (interp n st op).st g).1 = (pairOf (interp n st op).st g).2) ∧
      (match op with
       | .update fx2 =>
           (pairOf (interp n st op).st fx2).1 = (pairOf (interp n st op).st fx2).2
       | _ => True)) := by
  induction n with
  | zero =>
      intro st op hOk
      exact ⟨hOk, fun h => by simp [interp] at h⟩
  | succ n ih =>
      intro st op hOk
      cases op with
      | body b =>
        cases b with
        | ret v c =>
            exact ⟨hOk, fun _ => ⟨fun g hg => Or.inr rfl, fun g _ h => h, trivial⟩⟩
        | readS s k =>
            obtain ⟨hA, hBCD⟩ := ih (readSt st s) (.body (k (st.sigs.getD s sigDefault).value))
              (readSt_spec st s hOk).1
            simp only [interp]
            refine ⟨hA, fun hnone => ?_⟩
            obtain ⟨hB, hC, _⟩ := hBCD hnone
            have hrun : (readSt st s).running = st.running := (readSt_sameCore st s).1
            refine ⟨?_, ?_, trivial⟩
            · intro g hg
              by_cases hh : st.running.head? = some g
              · exact Or.inl ⟨rfl, hh⟩
              · have hp1 : pairOf (readSt st s) g = pairOf st g :=
                  (readSt_spec st s hOk).2.1 g hh
                rcases hB g (by rw [hrun]; exact hg) with ⟨_, hh2⟩ | hp2
                · rw [hrun] at hh2
                  exact absurd hh2 hh
                · exact Or.inr (hp2.trans hp1)
            · intro g hh hsy
              have hh2 : (readSt st s).running.head? = some g := by rw [hrun]; exact hh
              exact hC g hh2 ((readSt_spec st s hOk).2.2.2 g hh hsy)
        | writeS s w k =>
            obtain ⟨hA1, hBCD1⟩ := ih st (.write s w) hOk
            simp only [interp]
            cases he : (interp n st (.write s w)).err with
            | some e =>
                simp only [he]
                exact ⟨hA1, fun h => by simp at h⟩
            | none =>
                simp only [he]
                obtain ⟨hA2, hBCD2⟩ := ih (interp n st (.write s w)).st (.body k) hA1
                have hrun : (interp n st (.write s w)).st.running = st.running :=
                  (interp_frame n st (.write s w)).1.1
                refine ⟨hA2, fun hnone => ?_⟩
                obtain ⟨hB1, hC1, _⟩ := hBCD1 he
                obtain ⟨hB2, hC2, _⟩ := hBCD2 hnone
                refine ⟨?_, ?_, trivial⟩
                · intro g hg
                  rcases hB1 g hg with ⟨hht, _⟩ | hp1
                  · exact absurd hht (by simp [headTouch])
                  · by_cases hh : st.running.head? = some g
                    · exact Or.inl ⟨rfl, hh⟩
                    · rcases hB2 g (by rw [hrun]; exact hg) with ⟨_, hh2⟩ | hp2
                      · rw [hrun] at hh2
                        exact absurd hh2 hh
                      · exact Or.inr (hp2.trans hp1)
                · intro g hh hsy
                  exact hC2 g (by rw [hrun]; exact hh) (hC1 g hh hsy)
        | untrk inner k =>
            have hOk1 : StOk (setTracking st false) := StOk_congr hOk rfl rfl rfl rfl
            obtain ⟨hAi, hBCDi⟩ := ih (setTracking st false) (.body inner) hOk1
            simp only [interp]
            cases he : (interp n (setTracking st false) (.body inner)).err with
            | some e =>
                simp only [he]
                exact ⟨hAi, fun h => by simp at h⟩
            | none =>
                simp only [he]
                have hOk2 : StOk (setTracking (interp n (setTracking st false) (.body inner)).st
                    st.isTracking) := StOk_congr hAi rfl rfl rfl rfl
                obtain ⟨hAk, hBCDk⟩ := ih (setTracking (interp n (setTracking st false)
                  (.body inner)).st st.isTracking) (.body (k (interp n (setTracking st false)
                  (.body inner)).val)) hOk2
                have hruni : (interp n (setTracking st false) (.body inner)).st.running
                    = st.running := (interp_frame n (setTracking st false) (.body inner)).1.1
                refine ⟨hAk, fun hnone => ?_⟩
                obtain ⟨hBi, hCi, _⟩ := hBCDi he
                obtain ⟨hBk, hCk, _⟩ := hBCDk hnone
                refine ⟨?_, ?_, trivial⟩
                · intro g hg
                  by_cases hh : st.running.head? = some g
                  · exact Or.inl ⟨rfl, hh⟩
                  · rcases hBi g hg with ⟨_, hh2⟩ | hpi
                    · exact absurd hh2 hh
                    · rcases hBk g (by show g ∈ (interp n (setTracking st false)
                          (.body inner)).st.running; rw [hruni]; exact hg) with ⟨_, hh3⟩ | hpk
                      · have hh4 : (interp n (setTracking st false) (.body inner)).st.running.head?
                            = some g := hh3
                        rw [hruni] at hh4
                        exact absurd hh4 hh
                      · exact Or.inr (hpk.trans hpi)
                · intro g hh hsy
                  have hsi := hCi g hh hsy
                  have hh2 : (interp n (setTracking st false) (.body inner)).st.running.head?
                      = some g := by rw [hruni]; exact hh
                  exact hCk g hh2 hsi
        | emit v k =>
            have hOk1 : StOk (logObs st v) := StOk_congr hOk rfl rfl rfl rfl
            obtain ⟨hA, hBCD⟩ := ih (logObs st v) (.body k) hOk1
            simp only [interp]
            refine ⟨hA, fun hnone => ?_⟩
            obtain ⟨hB, hC, _⟩ := hBCD hnone
            refine ⟨?_, ?_, trivial⟩
            · intro g hg
              by_cases hh : st.running.head? = some g
              · exact Or.inl ⟨rfl, hh⟩
              · rcases hB g hg with ⟨_, hh2⟩ | hp
                · exact absurd hh2 hh
                · exact Or.inr (hp.trans (pairOf_congr rfl g))
            · intro g hh hsy
              exact hC g hh hsy
        | throwB c =>
            exact ⟨hOk, fun h => by simp [interp] at h⟩
      | update fx =>
        by_cases hmem : fx ∈ st.running
        · simp only [interp]
          have hmem' : fx ∈ (cleanup st fx).running := hmem
          rw [if_pos hmem']
          exact ⟨(cleanup_spec st fx hOk).1, fun h => by simp at h⟩
        · by_cases hfx : fx < st.fxs.length
          · simp only [interp]
            have hmem' : fx ∉ (cleanup st fx).running := hmem
            rw [if_neg hmem']
            have hOkc := (cleanup_spec st fx hOk).1
            have hlenc : (cleanup st fx).fxs.length = st.fxs.length := by
              simp [cleanup, List.length_set]
            have hfxc : fx < (cleanup st fx).fxs.length := by rw [hlenc]; exact hfx
            have hu : ((cleanup st fx).fxs.getD fx fxDefault).unlinks = [] := by
              have h3 := (cleanup_spec st fx hOk).2.2.1
              unfold pairOf at h3
              exact congrArg Prod.fst h3
            have hOkE : StOk (updEnter (cleanup st fx) fx) := stok_updEnter _ fx hOkc hfxc hu
            obtain ⟨hA1, hBCD1⟩ := ih (updEnter (cleanup st fx) fx)
              (.body ((cleanup st fx).fxs.getD fx fxDefault).body) hOkE
            cases he : (interp n (updEnter (cleanup st fx) fx)
                (.body ((cleanup st fx).fxs.getD fx fxDefault).body)).err with
            | some e =>
                simp only [he]
                exact ⟨stok_updExitErr _ fx hA1, fun h => by simp at h⟩
            | none =>
                simp only [he]
                obtain ⟨hB1, hC1, _⟩ := hBCD1 he
                have hexit := stok_updExitOk (interp n (updEnter (cleanup st fx) fx)
                  (.body ((cleanup st fx).fxs.getD fx fxDefault).body)).st fx
                  (interp n (updEnter (cleanup st fx) fx)
                    (.body ((cleanup st fx).fxs.getD fx fxDefault).body)).cln hA1
                refine ⟨hexit.1, fun _ => ?_⟩
                have hpres : ∀ g ∈ st.running,
                    pairOf (updExitOk (interp n (updEnter (cleanup st fx) fx)
                      (.body ((cleanup st fx).fxs.getD fx fxDefault).body)).st fx
                      (interp n (updEnter (cleanup st fx) fx)
                        (.body ((cleanup st fx).fxs.getD fx fxDefault).body)).cln) g
                      = pairOf st g := by
                  intro g hg
                  have hgfx : g ≠ fx := fun hgf => hmem (hgf ▸ hg)
                  have hp0 : pairOf (cleanup st fx) g = pairOf st g :=
                    (cleanup_spec st fx hOk).2.1 g hgfx
                  have hp1 : pairOf (updEnter (cleanup st fx) fx) g
                      = pairOf (cleanup st fx) g := pairOf_updEnter_ne _ fx g hgfx
                  have hgE : g ∈ (updEnter (cleanup st fx) fx).running :=
                    List.mem_cons_of_mem fx hg
                  have hp2 : pairOf (interp n (updEnter (cleanup st fx) fx)
                      (.body ((cleanup st fx).fxs.getD fx fxDefault).body)).st g
                      = pairOf (updEnter (cleanup st fx) fx) g := by
                    rcases hB1 g hgE with ⟨_, hh2⟩ | hp
                    · have hh3 : some fx = some g := hh2
                      exact absurd (Option.some.inj hh3).symm hgfx
                    · exact hp
                  exact (hexit.2 g).trans (hp2.trans (hp1.trans hp0))
                refine ⟨(bc_of_pres (Op.update fx) hpres).1, (bc_of_pres (Op.update fx) hpres).2, ?_⟩
                have hpE : pairOf (updEnter (cleanup st fx) fx) fx
                    = (((cleanup st fx).fxs.getD fx fxDefault).unlinks, []) :=
                  pairOf_updEnter_self _ fx hfxc
                have hsyE : (pairOf (updEnter (cleanup st fx) fx) fx).1
                    = (pairOf (updEnter (cleanup st fx) fx) fx).2 := by
                  rw [hpE]
                  show ((cleanup st fx).fxs.getD fx fxDefault).unlinks = []
                  exact hu
                have hhE : (updEnter (cleanup st fx) fx).running.head? = some fx := rfl
                have hsyR := hC1 fx hhE hsyE
                show (pairOf (updExitOk (interp n (updEnter (cleanup st fx) fx)
                    (.body ((cleanup st fx).fxs.getD fx fxDefault).body)).st fx
                    (interp n (updEnter (cleanup st fx) fx)
                      (.body ((cleanup st fx).fxs.getD fx fxDefault).body)).cln) fx).1
                  = (pairOf (updExitOk (interp n (updEnter (cleanup st fx) fx)
                    (.body ((cleanup st fx).fxs.getD fx fxDefault).body)).st fx
                    (interp n (updEnter (cleanup st fx) fx)
                      (.body ((cleanup st fx).fxs.getD fx fxDefault).body)).cln) fx).2
                rw [hexit.2 fx]
                exact hsyR
          · obtain ⟨hA, hpres, hsync⟩ :=
              stok_update_oob n st fx hOk (le_of_not_lt hfx) hmem
            exact ⟨hA, fun _ => ⟨fun g hg => Or.inr (hpres g),
              fun g hh hsy => by rw [hpres g]; exact hsy, hsync⟩⟩
      | flush =>
        simp only [interp]
        by_cases hU : st.isUpdating
        · rw [if_pos hU]
          exact ⟨hOk, fun _ => ⟨fun g hg => Or.inr rfl, fun g _ h => h, trivial⟩⟩
        · rw [if_neg hU]
          have hOkE : StOk (flushEnter st) := StOk_congr hOk rfl rfl rfl rfl
          obtain ⟨hA1, hBCD1⟩ :=
            ih (flushEnter st) (.runList (memoSnap (flushEnter st)) true) hOkE
          have hrun1 : (interp n (flushEnter st)
              (.runList (memoSnap (flushEnter st)) true)).st.running = st.running :=
            (interp_frame n (flushEnter st) (.runList (memoSnap (flushEnter st)) true)).1.1
          cases he1 : (interp n (flushEnter st)
              (.runList (memoSnap (flushEnter st)) true)).err with
          | some e =>
              simp only [he1]
              exact ⟨hA1, fun h => by simp at h⟩
          | none =>
              simp only [he1]
              obtain ⟨hB1, hC1, _⟩ := hBCD1 he1
              have hpm : ∀ g ∈ st.running, pairOf (interp n (flushEnter st)
                  (.runList (memoSnap (flushEnter st)) true)).st g = pairOf st g := by
                intro g hg
                rcases hB1 g hg with ⟨hht, _⟩ | hp
                · exact absurd hht (by simp [headTouch])
                · exact hp
              by_cases hBl : 0 < (flushMid (interp n (flushEnter st)
                  (.runList (memoSnap (flushEnter st)) true)).st).batchLevel
              · rw [if_pos hBl]
                have hpres : ∀ g ∈ st.running, pairOf (logEnd (flushMid (interp n (flushEnter st)
                    (.runList (memoSnap (flushEnter st)) true)).st)) g = pairOf st g := by
                  intro g hg
                  exact (pairOf_congr rfl g).trans (hpm g hg)
                exact ⟨StOk_congr hA1 rfl rfl rfl rfl,
                  fun _ => ⟨(bc_of_pres Op.flush hpres).1, (bc_of_pres Op.flush hpres).2, trivial⟩⟩
              · rw [if_neg hBl]
                have hOkC : StOk (flushClear (flushMid (interp n (flushEnter st)
                    (.runList (memoSnap (flushEnter st)) true)).st)) :=
                  stok_flushClear _ (StOk_congr hA1 rfl rfl rfl rfl)
                obtain ⟨hA2, hBCD2⟩ := ih (flushClear (flushMid (interp n (flushEnter st)
                    (.runList (memoSnap (flushEnter st)) true)).st))
                  (.runList (flushMid (interp n (flushEnter st)
                    (.runList (memoSnap (flushEnter st)) true)).st).pending false) hOkC
                cases he2 : (interp n (flushClear (flushMid (interp n (flushEnter st)
                    (.runList (memoSnap (flushEnter st)) true)).st))
                    (.runList (flushMid (interp n (flushEnter st)
                      (.runList (memoSnap (flushEnter st)) true)).st).pending false)).err with
                | some e =>
                    simp only [he2]
                    exact ⟨hA2, fun h => by simp at h⟩
                | none =>
                    simp only [he2]
                    obtain ⟨hB2, hC2, _⟩ := hBCD2 he2
                    have hpres : ∀ g ∈ st.running, pairOf (logEnd (interp n (flushClear
                        (flushMid (interp n (flushEnter st)
                          (.runList (memoSnap (flushEnter st)) true)).st))
                        (.runList (flushMid (interp n (flushEnter st)
                          (.runList (memoSnap (flushEnter st)) true)).st).pending false)).st) g
                        = pairOf st g := by
                      intro g hg
                      have hg2 : g ∈ (flushClear (flushMid (interp n (flushEnter st)
                          (.runList (memoSnap (flushEnter st)) true)).st)).running := by
                        show g ∈ (interp n (flushEnter st)
                          (.runList (memoSnap (flushEnter st)) true)).st.running
                        rw [hrun1]
                        exact hg
                      have hp2 : pairOf (interp n (flushClear (flushMid (interp n (flushEnter st)
                          (.runList (memoSnap (flushEnter st)) true)).st))
                          (.runList (flushMid (interp n (flushEnter st)
                            (.runList (memoSnap (flushEnter st)) true)).st).pending false)).st g
                          = pairOf (flushClear (flushMid (interp n (flushEnter st)
                            (.runList (memoSnap (flushEnter st)) true)).st)) g := by
                        rcases hB2 g hg2 with ⟨hht, _⟩ | hp
                        · exact absurd hht (by simp [headTouch])
                        · exact hp
                      exact (pairOf_congr rfl g).trans
                        (hp2.trans ((pairOf_congr rfl g).trans (hpm g hg)))
                    exact ⟨StOk_congr hA2 rfl rfl rfl rfl,
                      fun _ => ⟨(bc_of_pres Op.flush hpres).1, (bc_of_pres Op.flush hpres).2, trivial⟩⟩
      | write s w =>
        simp only [interp]
        by_cases heq : ((st.sigs.getD s sigDefault).eq (st.sigs.getD s sigDefault).value
            (resolveW w (st.sigs.getD s sigDefault).value)) = true
        · rw [if_pos heq]
          exact ⟨hOk, fun _ => ⟨fun g hg => Or.inr rfl, fun g _ h => h, trivial⟩⟩
        · rw [if_neg heq]
          have hOkS : StOk (scheduleDeps (writeValue st s
              (resolveW w (st.sigs.getD s sigDefault).value)) s) :=
            stok_scheduleDeps _ s (stok_writeValue st s _ hOk)
          obtain ⟨hA1, hBCD1⟩ := ih (scheduleDeps (writeValue st s
            (resolveW w (st.sigs.getD s sigDefault).value)) s) .flush hOkS
          refine ⟨hA1, fun hnone => ?_⟩
          obtain ⟨hB1, hC1, _⟩ := hBCD1 hnone
          have hpres : ∀ g ∈ st.running, pairOf (interp n (scheduleDeps (writeValue st s
              (resolveW w (st.sigs.getD s sigDefault).value)) s) .flush).st g
              = pairOf st g := by
            intro g hg
            rcases hB1 g hg with ⟨hht, _⟩ | hp
            · exact absurd hht (by simp [headTouch])
            · exact hp.trans (pairOf_congr rfl g)
          exact ⟨(bc_of_pres (Op.write s w) hpres).1, (bc_of_pres (Op.write s w) hpres).2, trivial⟩
      | runList l del =>
        cases l with
        | nil => exact ⟨hOk, fun _ => ⟨fun g hg => Or.inr rfl, fun g _ h => h, trivial⟩⟩
        | cons fx rest =>
            obtain ⟨hA1, hBCD1⟩ := ih st (.update fx) hOk
            simp only [interp]
            cases he : (interp n st (.update fx)).err with
            | some e =>
                simp only [he]
                exact ⟨hA1, fun h => by simp at h⟩
            | none =>
                simp only [he]
                obtain ⟨hB1, hC1, _⟩ := hBCD1 he
                have hrun1 : (interp n st (.update fx)).st.running = st.running :=
                  (interp_frame n st (.update fx)).1.1
                have hp1 : ∀ g ∈ st.running,
                    pairOf (interp n st (.update fx)).st g = pairOf st g := by
                  intro g hg
                  rcases hB1 g hg with ⟨hht, _⟩ | hp
                  · exact absurd hht (by simp [headTouch])
                  · exact hp
                cases del with
                | true =>
                    simp only [if_pos rfl]
                    have hOkE : StOk (erasePending (interp n st (.update fx)).st fx) :=
                      stok_erasePending _ fx hA1
                    obtain ⟨hA2, hBCD2⟩ :=
                      ih (erasePending (interp n st (.update fx)).st fx) (.runList rest true) hOkE
                    refine ⟨hA2, fun hnone => ?_⟩
                    obtain ⟨hB2, hC2, _⟩ := hBCD2 hnone
                    have hpres : ∀ g ∈ st.running,
                        pairOf (interp n (erasePending (interp n st (.update fx)).st fx)
                          (.runList rest true)).st g = pairOf st g := by
                      intro g hg
                      have hg2 : g ∈ (erasePending (interp n st (.update fx)).st fx).running := by
                        show g ∈ (interp n st (.update fx)).st.running
                        rw [hrun1]
                        exact hg
                      rcases hB2 g hg2 with ⟨hht, _⟩ | hp2
                      · exact absurd hht (by simp [headTouch])
                      · exact hp2.trans ((pairOf_congr rfl g).trans (hp1 g hg))
                    exact ⟨(bc_of_pres (Op.runList (fx :: rest) true) hpres).1,
                      (bc_of_pres (Op.runList (fx :: rest) true) hpres).2, trivial⟩
                | false =>
                    simp only [Bool.false_eq_true, if_false]
                    obtain ⟨hA2, hBCD2⟩ :=
                      ih (interp n st (.update fx)).st (.runList rest false) hA1
                    refine ⟨hA2, fun hnone => ?_⟩
                    obtain ⟨hB2, hC2, _⟩ := hBCD2 hnone
                    have hpres : ∀ g ∈ st.running,
                        pairOf (interp n (interp n st (.update fx)).st
                          (.runList rest false)).st g = pairOf st g := by
                      intro g hg
                      have hg2 : g ∈ (interp n st (.update fx)).st.running := by
                        rw [hrun1]
                        exact hg
                      rcases hB2 g hg2 with ⟨hht, _⟩ | hp2
                      · exact absurd hht (by simp [headTouch])
                      · exact hp2.trans (hp1 g hg)
                    exact ⟨(bc_of_pres (Op.runList (fx :: rest) false) hpres).1,
                      (bc_of_pres (Op.runList (fx :: rest) false) hpres).2, trivial⟩
      | createEffect m b =>
        have hOkP : StOk (pushFx st m b) := stok_pushFx st m b hOk
        obtain ⟨hA1, hBCD1⟩ := ih (pushFx st m b) (.update st.fxs.length) hOkP
        simp only [interp]
        refine ⟨hA1, fun hnone => ?_⟩
        obtain ⟨hB1, hC1, _⟩ := hBCD1 hnone
        have hpres : ∀ g ∈ st.running,
            pairOf (interp n (pushFx st m b) (.update st.fxs.length)).st g = pairOf st g := by
          intro g hg
          have hgl : g < st.fxs.length := hOk.2.2.2.1 g hg
          have hpp : pairOf (pushFx st m b) g = pairOf st g := by
            unfold pairOf pushFx
            dsimp only
            rw [getD_append_lt _ _ _ hgl]
          rcases hB1 g hg with ⟨hht, _⟩ | hp
          · exact absurd hht (by simp [headTouch])
          · exact hp.trans hpp
        exact ⟨(bc_of_pres (Op.createEffect m b) hpres).1,
          (bc_of_pres (Op.createEffect m b) hpres).2, trivial⟩
      | batch b =>
        have hOkE : StOk (batchEnter st) := StOk_congr hOk rfl rfl rfl rfl
        obtain ⟨hA1, hBCD1⟩ := ih (batchEnter st) (.body b) hOkE
        have hrun1 : (interp n (batchEnter st) (.body b)).st.running = st.running :=
          (interp_frame n (batchEnter st) (.body b)).1.1
        simp only [interp]
        by_cases hB0 : (batchExit (interp n (batchEnter st) (.body b)).st).batchLevel = 0
        · rw [if_pos hB0]
          have hOkX : StOk (batchExit (interp n (batchEnter st) (.body b)).st) :=
            StOk_congr hA1 rfl rfl rfl rfl
          obtain ⟨hA2, hBCD2⟩ :=
            ih (batchExit (interp n (batchEnter st) (.body b)).st) .flush hOkX
          refine ⟨hA2, fun hnone => ?_⟩
          cases hfe : (interp n (batchExit (interp n (batchEnter st) (.body b)).st) .flush).err with
          | some e =>
              simp only [hfe] at hnone
              exact absurd hnone (by simp)
          | none =>
              simp only [hfe] at hnone
              obtain ⟨hB1, hC1, _⟩ := hBCD1 hnone
              obtain ⟨hB2, hC2, _⟩ := hBCD2 hfe
              refine ⟨?_, ?_, trivial⟩
              · intro g hg
                by_cases hh : st.running.head? = some g
                · exact Or.inl ⟨rfl, hh⟩
                · have hp1 : pairOf (interp n (batchEnter st) (.body b)).st g = pairOf st g := by
                    rcases hB1 g hg with ⟨_, hh2⟩ | hp
                    · exact absurd hh2 hh
                    · exact hp
                  have hg2 : g ∈ (batchExit (interp n (batchEnter st) (.body b)).st).running := by
                    show g ∈ (interp n (batchEnter st) (.body b)).st.running
                    rw [hrun1]
                    exact hg
                  rcases hB2 g hg2 with ⟨hht, _⟩ | hp2
                  · exact absurd hht (by simp [headTouch])
                  · exact Or.inr (hp2.trans ((pairOf_congr rfl g).trans hp1))
              · intro g hh hsy
                have hs1 := hC1 g hh hsy
                have hh2 : (batchExit (interp n (batchEnter st) (.body b)).st).running.head?
                    = some g := by
                  show (interp n (batchEnter st) (.body b)).st.running.head? = some g
                  rw [hrun1]
                  exact hh
                exact hC2 g hh2 hs1
        · rw [if_neg hB0]
          refine ⟨StOk_congr hA1 rfl rfl rfl rfl, fun hnone => ?_⟩
          obtain ⟨hB1, hC1, _⟩ := hBCD1 hnone
          refine ⟨?_, ?_, trivial⟩
          · intro g hg
            by_cases hh : st.running.head? = some g
            · exact Or.inl ⟨rfl, hh⟩
            · rcases hB1 g hg with ⟨_, hh2⟩ | hp
              · exact absurd hh2 hh
              · exact Or.inr ((pairOf_congr rfl g).trans hp)
          · intro g hh hsy
            exact hC1 g hh hsy

/-! Claim theorems. -/

/-- C4: if the signal's equality predicate reports the written value (after
resolving an updater function against the current value) equal to the current
value, `update` returns without any side effect: the store — value, pending
set, observer sets, log — is returned unchanged and no error is raised, so no
observer is scheduled and no effect re-runs. -/
theorem write_equal_is_noop (n : Nat) (st : St) (s : Nat) (w : WArg)
    (h : (st.sigs.getD s sigDefault).eq (st.sigs.getD s sigDefault).value
          (resolveW w (st.sigs.getD s sigDefault).value) = true) :
    interp (n + 1) st (.write s w) = ⟨st, none, .undef, none⟩ := by
  simp only [interp]
  rw [if_pos h]

/-- C4 witness: writing `5` (via an updater function returning `5`) to a
signal holding `5` under the default equality is a no-op. -/
theorem write_equal_is_noop_witness :
    interp 10 ⟨[⟨.i 5, sEq, [0]⟩], [], 0, false, true, [], [], []⟩
        (.write 0 (.fn (fun _ => .i 5)))
      = ⟨⟨[⟨.i 5, sEq, [0]⟩], [], 0, false, true, [], [], []⟩, none, .undef, none⟩ :=
  write_equal_is_noop 9 _ 0 _ (by decide)

/-- C9: the comparison cache of `deepEqual` retains pairs whose comparison
has already completed.  On the heap `h9`, `o1 = {a : 1}` and `o2 = {a : 1}`
are structurally equal (second conjunct), and after that comparison completes
the cache still holds the pair (third conjunct); consequently the
structurally equal values `{x: o1, y: o1}` and `{x: o2, y: o2}` — acyclic,
sharing the substructure `o1` on the left — compare as NOT equal under the
default `structuralEqual` (first conjunct): the `y` comparison hits the
cached, already finished `(o1, o2)` pair and short-circuits to false. -/
theorem deepEqual_cache_keeps_finished_pairs :
    structuralEqual h9 20 (.ref 0) (.ref 1) = false ∧
    structuralEqual h9 20 (.ref 2) (.ref 3) = true ∧
    (deepEqualGo h9 strictDEP 20 (.one (.ref 2) (.ref 3)) 0 []).2 = [(2, [3])] := by
  decide

/-- C10: typed-array elements are compared with raw `!==`, not with the
configured primitive comparator: two typed arrays of the same type and length
holding `NaN` at index 0 are reported not equal both by the default strict
variant and by the loose variant, although both configured comparators treat
`NaN` as equal to `NaN`. -/
theorem typedArray_elements_ignore_comparator :
    structuralEqual h10 10 (.ref 0) (.ref 1) = false ∧
    looseStructuralEqual h10 10 (.ref 0) (.ref 1) = false ∧
    objectIs (.prim .nan) (.prim .nan) = true ∧
    looseCmp (.prim .nan) (.prim .nan) = true := by
  decide

/-- C7 (amended): `batch` increments the depth and runs the body at the
incremented depth (which the body cannot change, first conjunct); on exit the
depth is always back to its entry value (second conjunct); a nested exit
(entry depth positive) performs no flush and propagates the body's exception
(third conjunct); the outermost exit invokes `flush()` — also when the body
threw — and propagates the body's exception afterward unless the exit flush
itself throws, in which case the flush's exception replaces the body's
(fourth conjunct). -/
theorem batch_contract (n : Nat) (st : St) (b : Body) :
    (interp n (batchEnter st) (.body b)).st.batchLevel = st.batchLevel + 1 ∧
    (interp (n + 1) st (.batch b)).st.batchLevel = st.batchLevel ∧
    (0 < st.batchLevel →
      interp (n + 1) st (.batch b) =
        ⟨batchExit (interp n (batchEnter st) (.body b)).st,
          (interp n (batchEnter st) (.body b)).err, .undef, none⟩) ∧
    (st.batchLevel = 0 →
      interp (n + 1) st (.batch b) =
        ⟨(interp n (batchExit (interp n (batchEnter st) (.body b)).st) .flush).st,
          (match (interp n (batchExit (interp n (batchEnter st) (.body b)).st) .flush).err with
           | some e => some e
           | none => (interp n (batchEnter st) (.body b)).err), .undef, none⟩) := by
  have hlvl : (interp n (batchEnter st) (.body b)).st.batchLevel = st.batchLevel + 1 :=
    (interp_frame n (batchEnter st) (.body b)).1.2.1
  have hexit : (batchExit (interp n (batchEnter st) (.body b)).st).batchLevel = st.batchLevel := by
    show (interp n (batchEnter st) (.body b)).st.batchLevel - 1 = st.batchLevel
    rw [hlvl]
    exact Nat.succ_sub_one _
  refine ⟨hlvl, (interp_frame (n + 1) st (.batch b)).1.2.1, ?_, ?_⟩
  · intro hpos
    simp only [interp]
    rw [if_neg]
    rw [hexit]
    exact Nat.pos_iff_ne_zero.1 hpos
  · intro hzero
    simp only [interp]
    rw [if_pos]
    rw [hexit]
    exact hzero

/-- C7 witness: in the concrete `c7pre`/`c7body` scenario (entry depth 0),
`batch_contract` determines the result of the batch: the exit flush runs the
throwing effect and its exception (user 7) is the one propagated. -/
theorem batch_contract_witness :
    interp 31 (execProg 40 c7pre) (.batch c7body) =
      ⟨(interp 30 (batchExit (interp 30 (batchEnter (execProg 40 c7pre)) (.body c7body)).st)
          .flush).st, some (.user 7), .undef, none⟩ := by
  have h := (batch_contract 30 (execProg 40 c7pre) c7body).2.2.2 (by decide)
  rw [h]
  have he : (interp 30 (batchExit (interp 30 (batchEnter (execProg 40 c7pre))
      (.body c7body)).st) .flush).err = some (.user 7) := by decide
  rw [he]

/-- C5 (amended): untracked reads install no edges — with tracking off, the
signal `read` accessor leaves the store untouched (first conjunct); the
reader of `untrk` runs with tracking off and tracking stays off throughout
its run (second conjunct); when the reader returns normally the continuation
receives exactly the reader's result and runs with the tracking flag restored
to its entry value (third conjunct); when the reader throws, the exception
propagates and the store is left exactly as the reader left it — with
tracking still off, not restored (fourth conjunct, with the second). -/
theorem untracked_contract (n : Nat) (st : St) (f : Body) (k : SVal → Body) :
    (st.isTracking = false → ∀ s, readSt st s = st) ∧
    (interp n (setTracking st false) (.body f)).st.isTracking = false ∧
    ((interp n (setTracking st false) (.body f)).err = none →
      interp (n + 1) st (.body (.untrk f k)) =
        interp n (setTracking (interp n (setTracking st false) (.body f)).st st.isTracking)
          (.body (k (interp n (setTracking st false) (.body f)).val))) ∧
    (∀ e, (interp n (setTracking st false) (.body f)).err = some e →
      interp (n + 1) st (.body (.untrk f k)) =
        ⟨(interp n (setTracking st false) (.body f)).st, some e, .undef, none⟩) := by
  refine ⟨?_, ?_, ?_, ?_⟩
  · intro hK s
    unfold readSt
    rw [if_neg (by simp [hK])]
  · exact (interp_frame n (setTracking st false) (.body f)).1.2.2.2.2.2.2 rfl
  · intro he
    simp only [interp]
    rw [he]
  · intro e he
    simp only [interp]
    rw [he]

/-- C5 witness: instantiating `untracked_contract` on a fresh store and the
throwing reader shows the tracking flag is off after the reader's failed
run. -/
theorem untracked_contract_witness :
    (interp 19 (setTracking st0 false) (.body (.throwB 3))).st.isTracking = false :=
  (untracked_contract 19 st0 (.throwB 3) (fun v => .ret v none)).2.1

theorem balanced_failed (e : Err) : balanced [Event.failed e] := by
  refine ⟨rfl, ?_⟩
  intro m c h
  simp at h

/-- One top-level operation extends the log by a balanced fragment. -/
theorem runTop_balanced (n : Nat) (st : St) (t : Top) :
    ∃ u, (runTop n st t).log = st.log ++ u ∧ balanced u := by
  have hsettle : ∀ (op : Op), ∃ u, (settle (interp n st op)).log = st.log ++ u ∧ balanced u := by
    intro op
    obtain ⟨_, _, _, _, _, ⟨u, hu, hb⟩, _⟩ := (interp_frame n st op).1
    unfold settle
    cases he : (interp n st op).err with
    | none => exact ⟨u, hu, hb⟩
    | some e =>
        refine ⟨u ++ [.failed e], ?_, balanced_append hb (balanced_failed e)⟩
        show (interp n st op).st.log ++ [Event.failed e] = st.log ++ (u ++ [Event.failed e])
        rw [hu, List.append_assoc]
  cases t with
  | mkSig init eqf => exact ⟨[], by simp [runTop], balanced_nil⟩
  | mkEffect m b => exact hsettle (.createEffect m b)
  | writeT s w => exact hsettle (.write s w)
  | readT s =>
      refine ⟨[.obs (st.sigs.getD s sigDefault).value], ?_, balanced_obs _⟩
      show (readSt st s).log ++ [Event.obs (st.sigs.getD s sigDefault).value] = _
      obtain ⟨_, _, hlog, _⟩ := readSt_sameCore st s
      rw [hlog]
  | batchT b => exact hsettle (.batch b)
  | untrackedT b => exact hsettle (.body (.untrk b (fun v => .ret v none)))
  | cancelT fx =>
      exact ⟨cleanupEvents ((st.fxs.getD fx fxDefault).userCleanup), rfl,
        balanced_cleanupEvents _⟩

/-- The log of any program execution is balanced. -/
theorem execProg_balanced (n : Nat) (p : List Top) : balanced (execProg n p).log := by
  suffices h : ∀ st : St, balanced st.log → balanced (p.foldl (fun st t => runTop n st t) st).log by
    exact h st0 balanced_nil
  induction p with
  | nil => exact fun st h => h
  | cons t rest ih =>
      intro st h
      refine ih (runTop n st t) ?_
      obtain ⟨u, hu, hb⟩ := runTop_balanced n st t
      rw [hu]
      exact balanced_append h hb

/-- C8: failures of user cleanup callables are caught, reported and never
propagated.  For every program: in its log, `console.error` lines and
invocations of throwing user cleanups are in bijection (one message per
failed cleanup) and every error line carries the literal prefix
`Error during effect cleanup:` — this is `balanced` (first conjunct).  In the
concrete scenario `c8prog` (an effect whose cleanup throws, then a write that
re-runs it), the write raises nothing (no `failed` event in the log) and the
log shows exactly one error line for the one throwing cleanup invocation
(second conjunct). -/
theorem cleanup_error_caught_and_logged (n : Nat) (p : List Top) :
    balanced (execProg n p).log ∧
    (execProg 30 c8prog).log =
      [.run 0, .flushStart, .cleanupRun 9 true, .cleanupError cleanupErrMsg 9,
       .run 0, .flushEnd] := by
  refine ⟨execProg_balanced n p, ?_⟩
  decide

/-- C8 witness: `cleanup_error_caught_and_logged` applied to the concrete
scenario. -/
theorem cleanup_error_caught_and_logged_witness :
    balanced (execProg 30 c8prog).log :=
  (cleanup_error_caught_and_logged 30 c8prog).1

/-- A successful `update()` during the memo phase (`#isUpdating` set) logs
exactly one `run` event — its own — because every flush its body triggers
returns at the re-entrancy guard; the flag stays set. -/
theorem update_quiet (n : Nat) (st : St) (fx : Nat)
    (hU : st.isUpdating = true)
    (hok : (interp (n + 1) st (.update fx)).err = none) :
    ∃ t, (interp (n + 1) st (.update fx)).st.log = st.log ++ t ∧ runsOf t = [fx] ∧
      (interp (n + 1) st (.update fx)).st.isUpdating = true := by
  simp only [interp] at hok ⊢
  by_cases hmem : fx ∈ (cleanup st fx).running
  · rw [if_pos hmem] at hok
    simp at hok
  · rw [if_neg hmem] at hok ⊢
    have hq : QuietStep (updEnter (cleanup st fx) fx)
        (interp n (updEnter (cleanup st fx) fx)
          (.body ((cleanup st fx).fxs.getD fx fxDefault).body)).st :=
      (interp_frame n (updEnter (cleanup st fx) fx)
        (.body ((cleanup st fx).fxs.getD fx fxDefault).body)).2.2
    cases he : (interp n (updEnter (cleanup st fx) fx)
        (.body ((cleanup st fx).fxs.getD fx fxDefault).body)).err with
    | some e => simp only [he] at hok; simp at hok
    | none =>
        simp only [he]
        obtain ⟨hU2, t2, hlog2, hruns2⟩ := hq hU
        refine ⟨cleanupEvents ((st.fxs.getD fx fxDefault).userCleanup) ++ ([.run fx] ++ t2),
          ?_, ?_, hU2⟩
        · show (interp n (updEnter (cleanup st fx) fx)
            (.body ((cleanup st fx).fxs.getD fx fxDefault).body)).st.log = _
          rw [hlog2]
          show (cleanup st fx).log ++ [Event.run fx] ++ t2 = _
          show st.log ++ cleanupEvents ((st.fxs.getD fx fxDefault).userCleanup)
              ++ [Event.run fx] ++ t2 = _
          rw [List.append_assoc, List.append_assoc]
        · rw [runsOf_append, runsOf_append, hruns2,
            (cleanup_frame st fx).2.2.2.2.2.2]
          rfl

/-- The memo phase of a flush: running a duplicate-free snapshot `l` with
post-run deletion from the pending set, under `#isUpdating`, logs exactly the
`run` events of `l`, in order. -/
theorem runList_memo_quiet : ∀ (n : Nat) (l : List Nat) (st : St),
    st.isUpdating = true →
    (interp n st (.runList l true)).err = none →
    ∃ t, (interp n st (.runList l true)).st.log = st.log ++ t ∧ runsOf t = l ∧
      (interp n st (.runList l true)).st.isUpdating = true := by
  intro n
  induction n with
  | zero =>
      intro l st _ hok
      simp [interp] at hok
  | succ n ih =>
      intro l st hU hok
      cases l with
      | nil => exact ⟨[], by simp [interp], rfl, hU⟩
      | cons fx rest =>
          simp only [interp] at hok ⊢
          cases he : (interp n st (.update fx)).err with
          | some e => simp only [he] at hok; simp at hok
          | none =>
              simp only [he, if_true] at hok ⊢
              cases n with
              | zero => simp [interp] at he
              | succ m =>
                  obtain ⟨t1, hlog1, hruns1, hU1⟩ := update_quiet m st fx hU he
                  have hU1' : (erasePending (interp (m + 1) st (.update fx)).st fx).isUpdating
                      = true := hU1
                  obtain ⟨t2, hlog2, hruns2, hU2⟩ :=
                    ih rest (erasePending (interp (m + 1) st (.update fx)).st fx) hU1' hok
                  refine ⟨t1 ++ t2, ?_, ?_, hU2⟩
                  · rw [hlog2]
                    show (interp (m + 1) st (.update fx)).st.log ++ t2 = _
                    rw [hlog1, List.append_assoc]
                  · rw [runsOf_append, hruns1, hruns2]
                    rfl

/-- C1 (amended): in a successful flush from an idle store, the memo-kind
effects pending at flush entry (the memo snapshot) are exactly the effects
run during the first phase: the log of the flush is `flushStart`, then a
fragment `t1` whose `run` events are precisely the memo snapshot in order,
then the rest `t2` (the effect phase).  So every memo pending at entry runs
before any plain effect of the flush; and the snapshot contains only
memo-kind effects.  (Memos that become pending only during the memo phase
are not in the snapshot — they run in the effect phase, which is what the
counterexample exploits.) -/
theorem flush_runs_entry_memos_first (n : Nat) (st : St)
    (hU : st.isUpdating = false)
    (hok : (interp (n + 1) st .flush).err = none) :
    (∀ g ∈ memoSnap st, (st.fxs.getD g fxDefault).isMemo = true) ∧
    ∃ t1 t2, (interp (n + 1) st .flush).st.log = st.log ++ [.flushStart] ++ t1 ++ t2 ∧
      runsOf t1 = memoSnap st := by
  refine ⟨?_, ?_⟩
  · intro g hg
    exact (List.mem_filter.1 hg).2
  · simp only [interp] at hok ⊢
    rw [if_neg (by simp [hU])] at hok ⊢
    cases he1 : (interp n (flushEnter st) (.runList (memoSnap (flushEnter st)) true)).err with
    | some e => simp only [he1] at hok; simp at hok
    | none =>
        simp only [he1] at hok ⊢
        obtain ⟨t1, hlog1, hruns1, _⟩ :=
          runList_memo_quiet n (memoSnap (flushEnter st)) (flushEnter st) rfl he1
        by_cases hB : 0 < (flushMid (interp n (flushEnter st)
            (.runList (memoSnap (flushEnter st)) true)).st).batchLevel
        · rw [if_pos hB] at hok ⊢
          refine ⟨t1, [.flushEnd], ?_, hruns1⟩
          show (interp n (flushEnter st) (.runList (memoSnap (flushEnter st)) true)).st.log
              ++ [Event.flushEnd] = _
          rw [hlog1]
          simp [flushEnter, List.append_assoc]
        · rw [if_neg hB] at hok ⊢
          cases he2 : (interp n (flushClear (flushMid (interp n (flushEnter st)
              (.runList (memoSnap (flushEnter st)) true)).st))
              (.runList (flushMid (interp n (flushEnter st)
                (.runList (memoSnap (flushEnter st)) true)).st).pending false)).err with
          | some e => simp only [he2] at hok; simp at hok
          | none =>
              simp only [he2]
              obtain ⟨_, _, _, _, _, ⟨u, hu, _⟩, _⟩ :=
                (interp_frame n (flushClear (flushMid (interp n (flushEnter st)
                  (.runList (memoSnap (flushEnter st)) true)).st))
                  (.runList (flushMid (interp n (flushEnter st)
                    (.runList (memoSnap (flushEnter st)) true)).st).pending false)).1
              refine ⟨t1, u ++ [.flushEnd], ?_, hruns1⟩
              show (interp n (flushClear (flushMid (interp n (flushEnter st)
                  (.runList (memoSnap (flushEnter st)) true)).st))
                  (.runList (flushMid (interp n (flushEnter st)
                    (.runList (memoSnap (flushEnter st)) true)).st).pending false)).st.log
                  ++ [Event.flushEnd] = _
              rw [hu]
              show (interp n (flushEnter st)
                  (.runList (memoSnap (flushEnter st)) true)).st.log ++ u
                  ++ [Event.flushEnd] = _
              rw [hlog1]
              simp [flushEnter, List.append_assoc]

/-- C1 witness: `flush_runs_entry_memos_first` applied to the store reached
by the chain program. -/
theorem flush_runs_entry_memos_first_witness :
    (∀ g ∈ memoSnap (execProg 40 c1prog),
      ((execProg 40 c1prog).fxs.getD g fxDefault).isMemo = true) ∧
    ∃ t1 t2, (interp 31 (execProg 40 c1prog) .flush).st.log =
        (execProg 40 c1prog).log ++ [.flushStart] ++ t1 ++ t2 ∧
      runsOf t1 = memoSnap (execProg 40 c1prog) :=
  flush_runs_entry_memos_first 30 (execProg 40 c1prog) (by decide) (by decide)

/-- C2 (amended): with a duplicate-free pending set, (i) re-entering an
effect already on the running stack makes `update()` raise the
cyclic-dependency error immediately after its cleanup — so a cyclic write
chain aborts instead of looping and flushing terminates; (ii) the memo
snapshot a flush iterates is duplicate-free and contains only memo-kind
effects, and (iii) the pending set from which the effect phase takes its
snapshot is still duplicate-free — hence one flush activation directly
invokes each affected plain effect at most once (a memo-kind effect can
additionally be re-run in the effect phase, as the counterexample shows). -/
theorem flush_direct_runs (n : Nat) (st : St) (fx : Nat) (hN : st.pending.Nodup) :
    (fx ∈ st.running →
      interp (n + 1) st (.update fx) = ⟨cleanup st fx, some .cyclic, .undef, none⟩) ∧
    (memoSnap st).Nodup ∧
    (∀ g ∈ memoSnap st, (st.fxs.getD g fxDefault).isMemo = true) ∧
    (interp n (flushEnter st) (.runList (memoSnap (flushEnter st)) true)).st.pending.Nodup := by
  refine ⟨?_, hN.filter _, fun g hg => (List.mem_filter.1 hg).2, ?_⟩
  · intro hmem
    simp only [interp]
    rw [if_pos]
    exact hmem
  · have h := (interp_frame n (flushEnter st)
      (.runList (memoSnap (flushEnter st)) true)).1.2.2.2.2.1
    exact h hN

/-- C2 witness: on a store whose running stack already holds effect 0,
`update(0)` raises the cyclic-dependency error. -/
theorem flush_direct_runs_witness :
    interp 6 ⟨[], [], 0, true, true, [], [0], []⟩ (.update 0) =
      ⟨cleanup ⟨[], [], 0, true, true, [], [0], []⟩ 0, some .cyclic, .undef, none⟩ :=
  (flush_direct_runs 5 ⟨[], [], 0, true, true, [], [0], []⟩ 0 (by decide)).1 (by decide)

/-- C1 counterexample: in the memo chain `c1prog`, the flush triggered by
`writeT 0 (.i 1)` (the log suffix from index 8) directly invokes effect 0
(memo `m1`), then the PLAIN effect 2 — which emits `10·s + m2 = 10`, i.e. it
observes the stale `m2 = 0` while `s = 1` — and only then the memo effect 1
(`m2`).  So not every affected memo is up to date before a plain effect
observes it. -/
theorem memo_chain_stale_read :
    (execProg 40 c1prog).log =
      [.run 0, .flushStart, .flushEnd,
       .run 1, .flushStart, .flushEnd,
       .run 2, .obs (.i 0),
       .flushStart, .run 0, .run 2, .obs (.i 10), .run 1,
       .flushStart, .run 2, .obs (.i 11), .flushEnd, .flushEnd] ∧
    (execProg 40 c1prog).fxs.map (fun f => f.isMemo) = [true, true, false] ∧
    directRuns ((execProg 40 c1prog).log.drop 8) 0 = [0, 2, 1] := by
  decide

/-- C2 counterexample: in the acyclic program `c2prog` (no cyclic-dependency
error is raised anywhere: the log contains no `failed` event), the single
write `writeT 1 (.i 5)` triggers one flush activation (log suffix from
index 9) that directly invokes the memo-kind effect 1 TWICE — once in the
memo phase and once in the effect phase — so a single signal write can invoke
an affected (memo-kind) effect more than once per flush. -/
theorem memo_can_run_twice_per_flush :
    (execProg 40 c2prog).log =
      [.run 0, .flushStart, .flushEnd,
       .run 1, .flushStart, .flushEnd,
       .flushStart, .run 0, .flushEnd,
       .flushStart, .run 1, .run 0, .run 1, .flushStart, .flushEnd, .flushEnd] ∧
    directRuns ((execProg 40 c2prog).log.drop 9) 0 = [1, 0, 1] ∧
    (directRuns ((execProg 40 c2prog).log.drop 9) 0).count 1 = 2 ∧
    (execProg 40 c2prog).fxs.map (fun f => f.isMemo) = [true, true] := by
  decide

/-- C5 counterexample: `untracked` with a throwing reader does not restore
the tracking flag: starting from a fresh store (tracking on), after
`untracked(() => { throw })` the exception has propagated (logged as failed)
and the store's tracking flag is left `false`. -/
theorem untracked_throw_leaves_tracking_off :
    st0.isTracking = true ∧
    (execProg 20 [.untrackedT (.throwB 3)]).isTracking = false ∧
    (execProg 20 [.untrackedT (.throwB 3)]).log = [.failed (.user 3)] := by
  decide

/-- C6 counterexample: for an effect whose body returned a user cleanup,
invoking the cancel handle twice invokes the user cleanup twice — the
user-cleanup slot is not cleared by `cleanup()`, so the second invocation is
observably different from doing nothing. -/
theorem double_cancel_reruns_user_cleanup :
    (execProg 20 c6prog).log =
      [.run 0, .cleanupRun 7 false, .cleanupRun 7 false] ∧
    ((execProg 20 c6prog).log.count (.cleanupRun 7 false)) = 2 := by
  decide

/-- C7 counterexample: a batch whose body throws user exception 5 after
scheduling an effect that throws user exception 7 at the outermost-exit
flush: the flush's exception replaces the body's, so the caller receives
exception 7, not the body's exception 5. -/
theorem batch_flush_exception_replaces_body_exception :
    c7body = .writeS 0 (.val (.i 1)) (.throwB 5) ∧
    (interp 40 (execProg 40 c7pre) (.batch c7body)).err = some (.user 7) := by
  exact ⟨rfl, by decide⟩


/-! Reachability of the dependency-graph invariant, and the C3/C6 claims. -/

/-- Catching an exception at top level only logs it. -/
theorem stok_settle (r : Res) (h : StOk r.st) : StOk (settle r) := by
  unfold settle
  cases hre : r.err with
  | none => simp only [hre]; exact h
  | some e => simp only [hre]; exact StOk_congr h rfl rfl rfl rfl

/-- Allocating a fresh signal cell preserves the invariant. -/
theorem stok_mkSig (st : St) (init : SVal) (eqf : SVal → SVal → Bool) (hOk : StOk st) :
    StOk {st with sigs := st.sigs ++ [⟨init, eqf, []⟩]} := by
  obtain ⟨hD, hF, hC, hR, hP⟩ := hOk
  have hnew : (st.sigs ++ [(⟨init, eqf, []⟩ : SigC)]).getD st.sigs.length sigDefault
      = ⟨init, eqf, []⟩ := by
    simp [List.getD_eq_getElem?_getD, List.getElem?_append_right (le_refl _)]
  refine ⟨?_, ?_, ?_, hR, hP⟩
  · intro i hi
    simp only [List.length_append, List.length_singleton] at hi
    by_cases hil : i < st.sigs.length
    · rw [getD_append_lt _ _ _ hil]
      exact hD i hil
    · have hie : i = st.sigs.length := Nat.le_antisymm (Nat.lt_succ_iff.1 hi) (le_of_not_lt hil)
      subst hie
      rw [hnew]
      exact ⟨List.nodup_nil, by simp⟩
  · intro j hj
    refine ⟨(hF j hj).1, (hF j hj).2.1, ?_, (hF j hj).2.2.2⟩
    intro s hs
    simp only [List.length_append, List.length_singleton]
    exact Nat.lt_succ_of_lt ((hF j hj).2.2.1 s hs)
  · intro i hi j hj
    simp only [List.length_append, List.length_singleton] at hi
    by_cases hil : i < st.sigs.length
    · rw [getD_append_lt _ _ _ hil]
      exact hC i hil j hj
    · have hie : i = st.sigs.length := Nat.le_antisymm (Nat.lt_succ_iff.1 hi) (le_of_not_lt hil)
      subst hie
      rw [hnew]
      constructor
      · intro hin
        exact absurd hin (List.not_mem_nil j)
      · intro hin
        exact absurd ((hF j hj).2.2.1 _ hin) (lt_irrefl _)

/-- Every top-level operation preserves the store invariant. -/
theorem stok_runTop (n : Nat) (st : St) (t : Top) (hOk : StOk st) :
    StOk (runTop n st t) := by
  cases t with
  | mkSig init eqf => exact stok_mkSig st init eqf hOk
  | mkEffect m b => exact stok_settle _ (interp_stok n st (.createEffect m b) hOk).1
  | writeT s w => exact stok_settle _ (interp_stok n st (.write s w) hOk).1
  | readT s => exact StOk_congr (readSt_spec st s hOk).1 rfl rfl rfl rfl
  | batchT b => exact stok_settle _ (interp_stok n st (.batch b) hOk).1
  | untrackedT b =>
      exact stok_settle _ (interp_stok n st (.body (.untrk b (fun v => .ret v none))) hOk).1
  | cancelT fx => exact (cleanup_spec st fx hOk).1

/-- The fresh store satisfies the invariant. -/
theorem stok_st0 : StOk st0 :=
  ⟨fun i hi => absurd hi (Nat.not_lt_zero i), fun j hj => absurd hj (Nat.not_lt_zero j),
    fun i hi => absurd hi (Nat.not_lt_zero i),
    fun j hj => absurd hj (List.not_mem_nil j), fun j hj => absurd hj (List.not_mem_nil j)⟩

theorem stok_foldl (n : Nat) (p : List Top) :
    ∀ st, StOk st → StOk (p.foldl (fun st t => runTop n st t) st) := by
  induction p with
  | nil => exact fun st h => h
  | cons t rest ih => exact fun st h => ih _ (stok_runTop n st t h)

/-- The store invariant holds in every reachable store. -/
theorem stok_execProg (n : Nat) (p : List Top) : StOk (execProg n p) :=
  stok_foldl n p st0 stok_st0

/-- **C3.** In every reachable store, the dependency edges exactly mirror the
signals tracked-read during each effect's most recent run: a signal `s` not
in effect `fx`'s last read-set has no edge to `fx`, the scheduling loop of a
write to `s` therefore never inserts `fx` into the pending set, and whenever
an `update(fx)` completes normally the effect's unlinker set equals, element
for element, the list of signals tracked-read during that run (old edges are
removed by the cleanup at the start of `update` and reads reinstall the
current ones). -/
theorem effect_edges_track_last_reads (n : Nat) (p : List Top) (fx s : Nat)
    (hnot : s ∉ ((execProg n p).fxs.getD fx fxDefault).lastReads) :
    fx ∉ ((execProg n p).sigs.getD s sigDefault).deps ∧
    (fx ∈ (scheduleDeps (execProg n p) s).pending ↔ fx ∈ (execProg n p).pending) ∧
    (∀ m, (interp m (execProg n p) (.update fx)).err = none →
      ((interp m (execProg n p) (.update fx)).st.fxs.getD fx fxDefault).unlinks
        = ((interp m (execProg n p) (.update fx)).st.fxs.getD fx fxDefault).lastReads) := by
  obtain ⟨hD, hF, hC, hR, hP⟩ := stok_execProg n p
  have h1 : fx ∉ ((execProg n p).sigs.getD s sigDefault).deps := by
    intro hin
    by_cases hs : s < (execProg n p).sigs.length
    · have hfxlt : fx < (execProg n p).fxs.length := (hD s hs).2 fx hin
      have hsu : s ∈ ((execProg n p).fxs.getD fx fxDefault).unlinks :=
        (hC s hs fx hfxlt).1 hin
      exact hnot ((hF fx hfxlt).2.2.2 s hsu)
    · rw [getD_oob _ (le_of_not_lt hs)] at hin
      exact absurd hin (List.not_mem_nil fx)
  refine ⟨h1, ⟨?_, fun h => mem_foldl_pushPending_of_mem _ _ _ h⟩, ?_⟩
  · intro h
    rcases mem_foldl_pushPending _ _ _ h with h2 | h2
    · exact h2
    · exact absurd h2 h1
  · intro m herr
    exact ((interp_stok m (execProg n p) (.update fx) (stok_execProg n p)).2 herr).2.2

theorem effect_edges_track_last_reads_witness :
    (1 ∉ ((execProg 10 c3prog).fxs.getD 0 fxDefault).lastReads) ∧
    (0 ∉ ((execProg 10 c3prog).sigs.getD 1 sigDefault).deps ∧
      (0 ∈ (scheduleDeps (execProg 10 c3prog) 1).pending ↔ 0 ∈ (execProg 10 c3prog).pending) ∧
      (∀ m, (interp m (execProg 10 c3prog) (.update 0)).err = none →
        ((interp m (execProg 10 c3prog) (.update 0)).st.fxs.getD 0 fxDefault).unlinks
          = ((interp m (execProg 10 c3prog) (.update 0)).st.fxs.getD 0 fxDefault).lastReads)) :=
  ⟨by decide, effect_edges_track_last_reads 10 c3prog 0 1 (by decide)⟩

/-- **C6 (amended).** The first cancel removes every dependency edge (the
effect is gone from all observer sets and its unlinker set is empty) but does
not clear the stored user cleanup; the second cancel therefore unlinks
nothing and changes nothing in the store except appending the log events of
invoking the stored user cleanup again. -/
theorem second_cancel_only_reruns_user_cleanup (st : St) (fx : Nat) (hOk : StOk st) :
    (∀ i, i < st.sigs.length → fx ∉ ((cleanup st fx).sigs.getD i sigDefault).deps) ∧
    ((cleanup st fx).fxs.getD fx fxDefault).unlinks = [] ∧
    ((cleanup st fx).fxs.getD fx fxDefault).userCleanup
      = (st.fxs.getD fx fxDefault).userCleanup ∧
    cleanup (cleanup st fx) fx
      = appendLog (cleanup st fx)
          (cleanupEvents ((st.fxs.getD fx fxDefault).userCleanup)) := by
  obtain ⟨hsp1, hsp2, hsp3, hsp4, hsp5⟩ := cleanup_spec st fx hOk
  have hu : ((cleanup st fx).fxs.getD fx fxDefault).unlinks = [] := by
    unfold pairOf at hsp3
    exact congrArg Prod.fst hsp3
  refine ⟨hsp5, hu, hsp4, ?_⟩
  have h1 : (cleanup (cleanup st fx) fx).sigs = (cleanup st fx).sigs := by
    show unlinkAll (cleanup st fx).sigs fx ((cleanup st fx).fxs.getD fx fxDefault).unlinks
      = (cleanup st fx).sigs
    rw [hu]
    rfl
  have h2 : (cleanup (cleanup st fx) fx).fxs = (cleanup st fx).fxs := by
    show (cleanup st fx).fxs.set fx (⟨((cleanup st fx).fxs.getD fx fxDefault).isMemo, ((cleanup st fx).fxs.getD fx fxDefault).body, [], ((cleanup st fx).fxs.getD fx fxDefault).userCleanup, ((cleanup st fx).fxs.getD fx fxDefault).lastReads⟩ : FxC) = (cleanup st fx).fxs
    rw [← hu]
    exact set_getD_self _ _ _
  have h3 : (cleanup (cleanup st fx) fx).log
      = (cleanup st fx).log ++ cleanupEvents ((st.fxs.getD fx fxDefault).userCleanup) := by
    show (cleanup st fx).log
        ++ cleanupEvents ((cleanup st fx).fxs.getD fx fxDefault).userCleanup
      = (cleanup st fx).log ++ cleanupEvents ((st.fxs.getD fx fxDefault).userCleanup)
    rw [hsp4]
  exact St.ext h1 h2 rfl rfl rfl rfl rfl h3

theorem second_cancel_only_reruns_user_cleanup_witness :
    StOk c6st ∧
    ((∀ i, i < c6st.sigs.length → 0 ∉ ((cleanup c6st 0).sigs.getD i sigDefault).deps) ∧
      ((cleanup c6st 0).fxs.getD 0 fxDefault).unlinks = [] ∧
      ((cleanup c6st 0).fxs.getD 0 fxDefault).userCleanup
        = (c6st.fxs.getD 0 fxDefault).userCleanup ∧
      cleanup (cleanup c6st 0) 0
        = appendLog (cleanup c6st 0)
            (cleanupEvents ((c6st.fxs.getD 0 fxDefault).userCleanup))) :=
  ⟨by decide, second_cancel_only_reruns_user_cleanup c6st 0 (by decide)⟩

end MaliSignali
